import Mathlib

/-! # s3-data-cleaner-lambda: type inference and record annotation

A shallow embedding of `main.go`: `inferTypeAndSet`, the record loop of
`processCSV` and the line loop of `processJSONL`, together with the parts of
the Go standard library they call (`strconv.Atoi`, `strconv.ParseFloat`,
`encoding/json`, `strings.Split`, `fmt.Sprintf("%v", _)`).

Conventions.
* A Go `string` is a byte sequence; here it is a `String` (valid UTF-8), read
  as its list of characters. Every byte test of the library code compares
  against ASCII, which a multi-byte character never matches.
* `int` is 64 bits wide (`intSize = 64`).
* `log.Fatal` and a run-time panic both end the process before anything is
  written to the object store; they are the `Except.error` results.
-/

namespace S3DataCleaner

deriving instance DecidableEq for Except

/-! ## strconv: integers -/

/-- The two error kinds of `strconv.NumError`. -/
inductive NumError where
  | ErrSyntax
  | ErrRange
  deriving DecidableEq, Repr

/-- Width of `int` on the platform. -/
def intSize : Nat := 64

def maxUint64 : Nat := 2 ^ 64 - 1

/-- Value of `c - '0'` when `'0' <= c && c <= '9'`. -/
def decDigit (c : Char) : Option Nat :=
  if 48 ≤ c.toNat ∧ c.toNat ≤ 57 then some (c.toNat - 48) else none

/-- The byte `c | ('x' - 'X')` of strconv's `lower`. -/
def lower (c : Char) : Nat := c.toNat ||| 32

/-- Conversion `int64(x)`, two's complement. -/
def toInt64 (x : Int) : Int := (x + 2 ^ 63) % 2 ^ 64 - 2 ^ 63

/-- Loop of `ParseUint(s, 10, 64)`: `cutoff = maxUint64/10 + 1`,
`maxVal = 1<<64 - 1`. -/
def parseUintLoop : List Char → Nat → Except NumError Nat
  | [], n => .ok n
  | c :: cs, n =>
    match decDigit c with
    | none => .error .ErrSyntax
    | some d =>
      if n ≥ maxUint64 / 10 + 1 then .error .ErrRange
      else
        let n10 := n * 10 % 2 ^ 64
        let n1 := (n10 + d) % 2 ^ 64
        if n1 < n10 ∨ n1 > maxUint64 then .error .ErrRange
        else parseUintLoop cs n1

/-- Go `strconv.ParseUint(s, 10, 64)`. In base 10 a letter is a digit value of
at least 10 and an underscore is not accepted, so every byte other than
`0`..`9` is a syntax error. -/
def ParseUint (s : List Char) : Except NumError Nat :=
  if s = [] then .error .ErrSyntax else parseUintLoop s 0

/-- Go `strconv.ParseInt(s, 10, 0)` with `IntSize = 64`. -/
def ParseInt (s : List Char) : Except NumError Int :=
  if s = [] then .error .ErrSyntax
  else
    let neg : Bool := s.head? = some '-'
    let s1 := if s.head? = some '+' ∨ s.head? = some '-' then s.tail else s
    match ParseUint s1 with
    | .error .ErrSyntax => .error .ErrSyntax
    | r =>
      let un : Nat := match r with
        | .ok n => n
        | .error _ => maxUint64
      let cutoff : Nat := 2 ^ (intSize - 1)
      if ¬ neg ∧ un ≥ cutoff then .error .ErrRange
      else if neg ∧ un > cutoff then .error .ErrRange
      else
        let n := toInt64 un
        .ok (if neg then toInt64 (-n) else n)

/-- Digit loop of the fast path of `Atoi`: `ch -= '0'; if ch > 9 ...;
n = n*10 + int(ch)`. At most 18 digits are read, so `n` stays below `10^18`
and the `int` arithmetic does not wrap. -/
def atoiLoop : List Char → Int → Except NumError Int
  | [], n => .ok n
  | c :: cs, n =>
    match decDigit c with
    | none => .error .ErrSyntax
    | some d => atoiLoop cs (n * 10 + d)

/-- Go `strconv.Atoi`. -/
def Atoi (s : String) : Except NumError Int :=
  let sLen := s.utf8ByteSize
  if (intSize = 32 ∧ 0 < sLen ∧ sLen < 10) ∨ (intSize = 64 ∧ 0 < sLen ∧ sLen < 19) then
    let s0 := s.data
    let signed : Bool := s0.head? = some '-' ∨ s0.head? = some '+'
    let s1 := if signed then s0.tail else s0
    if signed ∧ s1.length < 1 then .error .ErrSyntax
    else
      match atoiLoop s1 0 with
      | .error e => .error e
      | .ok n => .ok (if s0.head? = some '-' then -n else n)
  else ParseInt s.data

/-! ## strconv: floating point

A `float64` is not computed. A finite result is represented by the exact
number the literal denotes, `mant * 10 ^ exp` or `mant * 2 ^ exp`; the value
Go stores is that number rounded to the nearest `float64` (ties to even).
`ParseFloat` reports `ErrRange` exactly when that rounding overflows, which
happens from `2^1024 - 2^970` on, half-way between the largest finite
`float64` and `2^1024`. -/

/-- Result of `ParseFloat`: NaN, an infinity, or the literal a finite value was
rounded from. -/
inductive Float64 where
  | nan
  | inf (neg : Bool)
  | dec (neg : Bool) (mant : Nat) (exp : Int)
  | hex (neg : Bool) (mant : Nat) (exp : Int)
  deriving DecidableEq, Repr

/-- The number `2^1024 - 2^970`, written out. -/
def overflowThreshold : Nat :=
  179769313486231580793728971405303415079934132710037826936173778980444968292764750946649017977587207096330286416692887910946555547851940402630657488671505820681908902000708383676273854845817711531764475730270069855571366959622842914819860834936475292719074168444365510704342711559699508093042880177904174497792

/-- Whether `mant * base ^ exp` rounds to an infinity. -/
def roundsToInf (base mant : Nat) (exp : Int) : Bool :=
  match exp with
  | Int.ofNat e => decide (overflowThreshold ≤ mant * base ^ e)
  | Int.negSucc e => decide (overflowThreshold * base ^ (e + 1) ≤ mant)

/-- Go `commonPrefixLenIgnoreCase(s, prefix)`; `prefix` is lower case. -/
def commonPrefixLenIgnoreCase : List Char → List Char → Nat
  | c :: s, p :: pre =>
    let c1 := if 65 ≤ c.toNat ∧ c.toNat ≤ 90 then c.toNat + 32 else c.toNat
    if c1 ≠ p.toNat then 0 else commonPrefixLenIgnoreCase s pre + 1
  | _, _ => 0

/-- Go `special`: the value and the number of bytes used when `s` starts with
an optionally signed `inf`, `infinity` or an unsigned `nan`, in any case. -/
def special (s : List Char) : Option (Float64 × Nat) :=
  let infinity (neg : Bool) (nsign : Nat) (s : List Char) : Option (Float64 × Nat) :=
    let n := commonPrefixLenIgnoreCase s "infinity".data
    let n := if 3 < n ∧ n < 8 then 3 else n
    if n = 3 ∨ n = 8 then some (.inf neg, nsign + n) else none
  match s with
  | [] => none
  | c :: rest =>
    if c = '+' ∨ c = '-' then infinity (c = '-') 1 rest
    else if c = 'i' ∨ c = 'I' then infinity false 0 s
    else if c = 'n' ∨ c = 'N' then
      if commonPrefixLenIgnoreCase s "nan".data = 3 then some (.nan, 3) else none
    else none

/-- Variables of the digit loop of `readFloat`. The mantissa is kept in full:
Go keeps 19 digits (16 in base 16) and a `trunc` flag, then rounds from all
the digits. -/
structure Digits where
  underscores : Bool := false
  sawdot : Bool := false
  sawdigits : Bool := false
  nd : Nat := 0
  dp : Int := 0
  mantissa : Nat := 0
  deriving DecidableEq, Repr

/-- Digit loop of `readFloat`; returns the state and the unread bytes. -/
def readDigits (base : Nat) : List Char → Digits → Digits × List Char
  | [], st => (st, [])
  | c :: cs, st =>
    if c = '_' then readDigits base cs { st with underscores := true }
    else if c = '.' then
      if st.sawdot then (st, c :: cs)
      else readDigits base cs { st with sawdot := true, dp := st.nd }
    else if 48 ≤ c.toNat ∧ c.toNat ≤ 57 then
      if c = '0' ∧ st.nd = 0 then
        readDigits base cs { st with sawdigits := true, dp := st.dp - 1 }
      else
        readDigits base cs { st with
          sawdigits := true, nd := st.nd + 1, mantissa := st.mantissa * base + (c.toNat - 48) }
    else if base = 16 ∧ 97 ≤ lower c ∧ lower c ≤ 102 then
      readDigits base cs { st with
        sawdigits := true, nd := st.nd + 1, mantissa := st.mantissa * 16 + (lower c - 97 + 10) }
    else (st, c :: cs)

/-- Exponent digit loop of `readFloat`: digits and underscores; `e` stops
growing once it has reached 10000. Returns `e`, whether an underscore was
seen, and the unread bytes. -/
def readExpDigits : List Char → Nat → Bool → Nat × Bool × List Char
  | [], e, u => (e, u, [])
  | c :: cs, e, u =>
    if c = '_' then readExpDigits cs e true
    else if 48 ≤ c.toNat ∧ c.toNat ≤ 57 then
      readExpDigits cs (if e < 10000 then e * 10 + (c.toNat - 48) else e) u
    else (e, u, c :: cs)

/-- Go `underscoreOK`: underscores appear only between digits or between a
base prefix and a digit. `saw` is `'^'` at the start, `'0'` after a digit or
base prefix, `'_'` after an underscore and `'!'` otherwise. -/
def underscoreLoop (hex : Bool) : List Char → Char → Bool
  | [], saw => saw ≠ '_'
  | c :: cs, saw =>
    if (48 ≤ c.toNat ∧ c.toNat ≤ 57) ∨ (hex ∧ 97 ≤ lower c ∧ lower c ≤ 102) then
      underscoreLoop hex cs '0'
    else if c = '_' then
      if saw ≠ '0' then false else underscoreLoop hex cs '_'
    else if saw = '_' then false
    else underscoreLoop hex cs '!'

def underscoreOK (s : List Char) : Bool :=
  let s := if s.head? = some '-' ∨ s.head? = some '+' then s.tail else s
  match s with
  | c0 :: c1 :: rest =>
    if c0 = '0' ∧ (lower c1 = 98 ∨ lower c1 = 111 ∨ lower c1 = 120) then
      underscoreLoop (lower c1 = 120) rest '0'
    else underscoreLoop false s '^'
  | _ => underscoreLoop false s '^'

/-- What `readFloat` found: sign, base, mantissa and exponent of the literal. -/
structure Literal where
  neg : Bool
  hex : Bool
  mantissa : Nat
  exp : Int
  deriving DecidableEq, Repr

/-- Go `readFloat` on the whole of `s`: `some` when it returns `ok` having read
every byte (`ParseFloat` rejects a literal followed by anything else). -/
def readFloat (s : List Char) : Option Literal :=
  match s with
  | [] => none
  | c :: cs =>
    let neg : Bool := c = '-'
    let s1 := if c = '+' ∨ c = '-' then cs else s
    let isHex : Bool := match s1 with
      | c0 :: c1 :: _ :: _ => c0 = '0' ∧ lower c1 = 120
      | _ => false
    let base := if isHex then 16 else 10
    let (st, rest) := readDigits base (if isHex then s1.drop 2 else s1) {}
    if ¬ st.sawdigits then none
    else
      let dp : Int := if st.sawdot then st.dp else st.nd
      let dp : Int := if isHex then dp * 4 else dp
      let ndMant : Int := if isHex then st.nd * 4 else st.nd
      let expChar := if isHex then 112 else 101
      let finish (dp : Int) (underscores : Bool) (rest : List Char) : Option Literal :=
        if rest ≠ [] then none
        else if underscores ∧ ¬ underscoreOK s then none
        else some ⟨neg, isHex, st.mantissa, if st.mantissa ≠ 0 then dp - ndMant else 0⟩
      match rest with
      | e :: r1 =>
        if lower e = expChar then
          match r1 with
          | [] => none
          | sg :: r2 =>
            let esign : Int := if sg = '-' then -1 else 1
            let r3 := if sg = '+' ∨ sg = '-' then r2 else r1
            match r3 with
            | [] => none
            | d :: _ =>
              if d.toNat < 48 ∨ d.toNat > 57 then none
              else
                let (e, u, r4) := readExpDigits r3 0 st.underscores
                finish (dp + e * esign) u r4
        else if isHex then none
        else finish dp st.underscores rest
      | [] => if isHex then none else finish dp st.underscores []

/-- Go `strconv.ParseFloat(s, 64)`. -/
def ParseFloat (s : String) : Except NumError Float64 :=
  match special s.data with
  | some (f, n) => if n ≠ s.data.length then .error .ErrSyntax else .ok f
  | none =>
    match readFloat s.data with
    | none => .error .ErrSyntax
    | some l =>
      if roundsToInf (if l.hex then 2 else 10) l.mantissa l.exp then .error .ErrRange
      else .ok (if l.hex then .hex l.neg l.mantissa l.exp else .dec l.neg l.mantissa l.exp)

/-! ## Values and maps -/

/-- A Go map with string keys, as its bindings: the keys are distinct and the
order of the bindings carries no meaning (`encoding/json` sorts the keys). -/
abbrev GoMap (α : Type) := List (String × α)

/-- Statement `m[k] = v`. -/
def GoMap.set {α : Type} : GoMap α → String → α → GoMap α
  | [], k, v => [(k, v)]
  | (k1, v1) :: m, k, v => if k1 = k then (k, v) :: m else (k1, v1) :: GoMap.set m k v

/-- Expression `m[k]` with the comma-ok form. -/
def GoMap.get? {α : Type} : GoMap α → String → Option α
  | [], _ => none
  | (k1, v1) :: m, k => if k1 = k then some v1 else GoMap.get? m k

/-- A `map[string]string` variable: `none` is the nil map. -/
abbrev ErrorMap := Option (GoMap String)

/-- The dynamic values an `interface{}` holds in this program: what
`inferTypeAndSet` stores, what `json.Unmarshal` decodes, and the error map
stored under `_error`. -/
inductive Value where
  | int (i : Int)
  | float (f : Float64)
  | bool (b : Bool)
  | str (s : String)
  | null
  | arr (xs : List Value)
  | obj (m : List (String × Value))
  | strMap (m : ErrorMap)

/-- Type `Row` of `main.go`: `map[string]interface{}`. -/
abbrev Row := GoMap Value

/-! ## inferTypeAndSet -/

/-- Function `inferTypeAndSet(value, key, row)`: the row after the call and the
returned error (`none` for `nil`, otherwise its message). -/
def inferTypeAndSet (value key : String) (row : Row) : Row × Option String :=
  match Atoi value with
  | .ok i => (row.set key (.int i), none)
  | .error _ =>
    match ParseFloat value with
    | .ok f => (row.set key (.float f), none)
    | .error _ =>
      if value = "true" ∨ value = "false" then
        (row.set key (.bool (value = "true")), none)
      else if value ≠ "" then (row.set key (.str value), none)
      else (row, some "Not inferable")

/-- Variables of one record's annotation: `row`, `errorMap`, `hasError`. -/
structure Annot where
  row : Row := []
  errorMap : ErrorMap := none
  hasError : Bool := false

/-- The statement both loops run for one field:
`if err := inferTypeAndSet(value, key, &row); err != nil { ... }`. -/
def annotateField (value key : String) (st : Annot) : Annot :=
  match inferTypeAndSet value key st.row with
  | (row, none) => { st with row := row }
  | (row, some err) =>
    { row := row, errorMap := some (GoMap.set (st.errorMap.getD []) key err), hasError := true }

/-! ## encoding/json: strings and string maps -/

/-- Lower-case hexadecimal digit. -/
def hexDigit (n : Nat) : Char := Char.ofNat (if n < 10 then 48 + n else 87 + n)

/-- One character of a JSON string as `json.Marshal` writes it (HTML escaping
is on): the two-character escapes for the quote, the backslash and
`\b \f \n \r \t`, `\u00XX` for the other control characters and for
`<`, `>`, `&`, and `\u2028`, `\u2029` for the two Unicode line separators
(Go 1.22 and later; earlier releases write `\u0008` and `\u000c`). -/
def jsonEscape (c : Char) : List Char :=
  let b := c.toNat
  if b < 128 then
    if 32 ≤ b ∧ b ≠ 34 ∧ b ≠ 92 ∧ b ≠ 60 ∧ b ≠ 62 ∧ b ≠ 38 then [c]
    else if b = 92 ∨ b = 34 then [Char.ofNat 92, c]
    else if b = 8 then [Char.ofNat 92, 'b']
    else if b = 12 then [Char.ofNat 92, 'f']
    else if b = 10 then [Char.ofNat 92, 'n']
    else if b = 13 then [Char.ofNat 92, 'r']
    else if b = 9 then [Char.ofNat 92, 't']
    else [Char.ofNat 92, 'u', '0', '0', hexDigit (b / 16), hexDigit (b % 16)]
  else if b = 8232 ∨ b = 8233 then [Char.ofNat 92, 'u', '2', '0', '2', hexDigit (b % 16)]
  else [c]

/-- A string as a JSON string literal. -/
def jsonString (s : String) : String :=
  ⟨Char.ofNat 34 :: (s.data.flatMap jsonEscape ++ [Char.ofNat 34])⟩

/-- Byte order of two strings (`a < b`). -/
def strLess : List Char → List Char → Bool
  | [], [] => false
  | [], _ :: _ => true
  | _ :: _, [] => false
  | a :: as, b :: bs =>
    if a.toNat < b.toNat then true
    else if b.toNat < a.toNat then false
    else strLess as bs

/-- Insertion of a binding into bindings sorted by key. -/
def insertByKey {α : Type} (kv : String × α) : List (String × α) → List (String × α)
  | [] => [kv]
  | kv1 :: m => if strLess kv1.1.data kv.1.data then kv1 :: insertByKey kv m else kv :: kv1 :: m

/-- The bindings of a map in the order `json.Marshal` writes them. -/
def sortByKey {α : Type} (m : List (String × α)) : List (String × α) :=
  m.foldr insertByKey []

/-- Text of a JSON object with the given members, already encoded. -/
def jsonObject (members : List (String × String)) : String :=
  "\x7b" ++ ",".intercalate (members.map fun kv => jsonString kv.1 ++ ":" ++ kv.2) ++ "\x7d"

/-- Go `json.Marshal` of a `map[string]string`: `null` for the nil map,
otherwise an object with the keys sorted. It cannot fail. -/
def marshalErrorMap : ErrorMap → String
  | none => "null"
  | some m => jsonObject ((sortByKey m).map fun kv => (kv.1, jsonString kv.2))

/-! ## processCSV -/

/-- How a run ends without writing anything. -/
inductive Abort where
  | csvFieldCount
  | indexOutOfRange
  | jsonUnmarshal
  | nilMapAssign
  deriving DecidableEq, Repr

/-- Go `csv.Reader.ReadAll` of a reader left at its defaults, over the records
the text splits into. `FieldsPerRecord` is 0, so it is set to the number of
fields of the first record and every later record must have that number;
otherwise `ReadAll` returns `ErrFieldCount`, which `processCSV` hands to
`log.Fatal`. Quoting and delimiters are not modelled. -/
def ReadAll (records : List (List String)) : Except Abort (List (List String)) :=
  match records with
  | [] => .ok []
  | first :: rest =>
    if rest.all fun r => r.length = first.length then .ok records else .error .csvFieldCount

/-- Loop `for i, header := range headers` of `processCSV`, from index `i` on;
`record[i]` panics when `i` is not below `len(record)`. -/
def fieldLoop (record : List String) : List String → Nat → Annot → Except Abort Annot
  | [], _, st => .ok st
  | header :: headers, i, st =>
    match record.get? i with
    | none => .error .indexOutOfRange
    | some value => fieldLoop record headers (i + 1) (annotateField value header st)

/-- Go `fmt.Sprintf("%v", b)` of a `bool`. -/
def sprintBool (b : Bool) : String := if b then "true" else "false"

/-- Body of the loop `for _, record := range records[1:]` of `processCSV`: the
row appended to `processedRecords`. -/
def processRecord (headers record : List String) : Except Abort (List String) :=
  match fieldLoop record headers 0 {} with
  | .error e => .error e
  | .ok st => .ok (record ++ [marshalErrorMap st.errorMap, sprintBool st.hasError])

/-- Loop over `records[1:]`, collecting the rows. -/
def processRecords (headers : List String) : List (List String) → Except Abort (List (List String))
  | [] => .ok []
  | record :: records =>
    match processRecord headers record with
    | .error e => .error e
    | .ok out =>
      match processRecords headers records with
      | .error e => .error e
      | .ok outs => .ok (out :: outs)

/-- Function `processCSV`, from the records of the content to the
`processedRecords` handed to the CSV writer. -/
def processCSV (rawRecords : List (List String)) : Except Abort (List (List String)) :=
  match ReadAll rawRecords with
  | .error e => .error e
  | .ok [] => .error .indexOutOfRange
  | .ok (headers :: records) =>
    match processRecords headers records with
    | .error e => .error e
    | .ok outs => .ok ((headers ++ ["_error", "has_error"]) :: outs)

/-! ## encoding/json: decoding

`json.Unmarshal` first checks that the input is one JSON value between
optional white space, then stores it. Into an `interface{}` an object becomes
a `map[string]interface{}`, an array a `[]interface{}`, a number a `float64`
(through `strconv.ParseFloat`, whose range error fails the call), a string a
`string`, `true`/`false` a `bool` and `null` the nil interface. The decoder
below reads with one pass; `fuel` bounds the nesting of its calls. Of two
calls nested one in the other, the inner one starts further on in the input
except when it reads the first element of an array, so twice the length of
the input plus two is enough. -/

/-- JSON white space: space, tab, carriage return, line feed. -/
def isSpace (c : Char) : Bool := c.toNat = 32 ∨ c.toNat = 9 ∨ c.toNat = 13 ∨ c.toNat = 10

def skipSpace : List Char → List Char
  | [] => []
  | c :: cs => if isSpace c then skipSpace cs else c :: cs

/-- Value of a hexadecimal digit, either case. -/
def hexVal (c : Char) : Option Nat :=
  let b := c.toNat
  if 48 ≤ b ∧ b ≤ 57 then some (b - 48)
  else if 97 ≤ b ∧ b ≤ 102 then some (b - 87)
  else if 65 ≤ b ∧ b ≤ 70 then some (b - 55)
  else none

/-- Go `getu4` without the leading backslash and `u`: the value of four
hexadecimal digits. -/
def hex4 (a b c d : Char) : Option Nat :=
  match hexVal a, hexVal b, hexVal c, hexVal d with
  | some x, some y, some z, some w => some (((x * 16 + y) * 16 + z) * 16 + w)
  | _, _, _, _ => none

/-- Go `getu4` at the start of `s`: the code unit of a `\uXXXX` escape there. -/
def getu4 (s : List Char) : Option Nat :=
  match s with
  | b :: u :: h1 :: h2 :: h3 :: h4 :: _ =>
    if b.toNat = 92 ∧ u = 'u' then hex4 h1 h2 h3 h4 else none
  | _ => none

/-- The character a single-letter escape stands for. -/
def simpleEscape (e : Char) : Option Char :=
  if e.toNat = 34 ∨ e.toNat = 92 ∨ e.toNat = 47 then some e
  else if e = 'b' then some (Char.ofNat 8)
  else if e = 'f' then some (Char.ofNat 12)
  else if e = 'n' then some (Char.ofNat 10)
  else if e = 'r' then some (Char.ofNat 13)
  else if e = 't' then some (Char.ofNat 9)
  else none

/-- The body of a JSON string, after the opening quote: the decoded text (Go
`unquote`) and what follows the closing quote. A control character and an
unknown escape are errors; a high surrogate followed by a low one is the
character of the pair, any other surrogate is U+FFFD. -/
def scanString : Nat → List Char → List Char → Option (List Char × List Char)
  | 0, _, _ => none
  | fuel + 1, s, acc =>
    match s with
    | [] => none
    | c :: cs =>
      if c.toNat = 34 then some (acc.reverse, cs)
      else if c.toNat = 92 then
        match cs with
        | [] => none
        | e :: cs1 =>
          if e = 'u' then
            match cs1 with
            | h1 :: h2 :: h3 :: h4 :: cs2 =>
              match hex4 h1 h2 h3 h4 with
              | none => none
              | some rr =>
                if 55296 ≤ rr ∧ rr < 57344 then
                  match getu4 cs2 with
                  | some rr1 =>
                    if rr < 56320 ∧ 56320 ≤ rr1 ∧ rr1 < 57344 then
                      scanString fuel (cs2.drop 6)
                        (Char.ofNat (65536 + (rr - 55296) * 1024 + (rr1 - 56320)) :: acc)
                    else scanString fuel cs2 (Char.ofNat 65533 :: acc)
                  | none => scanString fuel cs2 (Char.ofNat 65533 :: acc)
                else scanString fuel cs2 (Char.ofNat rr :: acc)
            | _ => none
          else
            match simpleEscape e with
            | none => none
            | some x => scanString fuel cs1 (x :: acc)
      else if c.toNat < 32 then none
      else scanString fuel cs (c :: acc)

/-- The longest run of decimal digits at the start of `s`, and the rest. -/
def takeDigits : List Char → List Char × List Char
  | [] => ([], [])
  | c :: cs =>
    if 48 ≤ c.toNat ∧ c.toNat ≤ 57 then ((takeDigits cs).1.cons c, (takeDigits cs).2)
    else ([], c :: cs)

/-- The integer part of a JSON number: `0`, or a digit `1`..`9` and the digits
after it. -/
def scanInt (s : List Char) : Option (List Char × List Char) :=
  match s with
  | [] => none
  | c :: cs =>
    if c = '0' then some ([c], cs)
    else if 49 ≤ c.toNat ∧ c.toNat ≤ 57 then some (c :: (takeDigits cs).1, (takeDigits cs).2)
    else none

/-- The optional fraction of a JSON number: a point and one or more digits. -/
def scanFrac (s : List Char) : Option (List Char × List Char) :=
  match s with
  | [] => some ([], [])
  | p :: r =>
    if p = '.' then
      if (takeDigits r).1 = [] then none else some (p :: (takeDigits r).1, (takeDigits r).2)
    else some ([], s)

/-- The optional exponent of a JSON number: `e` or `E`, an optional sign and
one or more digits. -/
def scanExp (s : List Char) : Option (List Char × List Char) :=
  match s with
  | [] => some ([], [])
  | e :: r =>
    if e = 'e' ∨ e = 'E' then
      let signed : Bool := r.head? = some '+' ∨ r.head? = some '-'
      let r1 := if signed then r.tail else r
      if (takeDigits r1).1 = [] then none
      else some (e :: (if signed then r.take 1 else []) ++ (takeDigits r1).1, (takeDigits r1).2)
    else some ([], s)

/-- A JSON number at the start of `s`: its text and the rest. -/
def scanNumber (s : List Char) : Option (List Char × List Char) :=
  let neg : Bool := s.head? = some '-'
  match scanInt (if neg then s.tail else s) with
  | none => none
  | some (int, s2) =>
    match scanFrac s2 with
    | none => none
    | some (frac, s3) =>
      match scanExp s3 with
      | none => none
      | some (ex, s4) => some ((if neg then ['-'] else []) ++ int ++ frac ++ ex, s4)

mutual
/-- One JSON value at the start of `s` (no leading white space), inside `depth`
arrays and objects; nesting deeper than 10000 is an error. -/
def parseValue : Nat → Nat → List Char → Option (Value × List Char)
  | 0, _, _ => none
  | fuel + 1, depth, s =>
    match s with
    | [] => none
    | c :: cs =>
      if c.toNat = 123 then
        if depth ≥ 10000 then none
        else
          match skipSpace cs with
          | [] => none
          | d :: ds =>
            if d.toNat = 125 then some (.obj [], ds)
            else
              match parseMembers fuel (depth + 1) (d :: ds) [] with
              | none => none
              | some (m, rest) => some (.obj m, rest)
      else if c.toNat = 91 then
        if depth ≥ 10000 then none
        else
          match skipSpace cs with
          | [] => none
          | d :: ds =>
            if d.toNat = 93 then some (.arr [], ds)
            else
              match parseElems fuel (depth + 1) (d :: ds) [] with
              | none => none
              | some (xs, rest) => some (.arr xs, rest)
      else if c.toNat = 34 then
        match scanString (cs.length + 1) cs [] with
        | none => none
        | some (str, rest) => some (.str ⟨str⟩, rest)
      else if c = 't' then
        if cs.take 3 = ['r', 'u', 'e'] then some (.bool true, cs.drop 3) else none
      else if c = 'f' then
        if cs.take 4 = ['a', 'l', 's', 'e'] then some (.bool false, cs.drop 4) else none
      else if c = 'n' then
        if cs.take 3 = ['u', 'l', 'l'] then some (.null, cs.drop 3) else none
      else
        match scanNumber s with
        | none => none
        | some (lit, rest) =>
          match ParseFloat ⟨lit⟩ with
          | .ok f => some (.float f, rest)
          | .error _ => none
/-- The elements of an array from the start of an element on, up to and
including the closing bracket. -/
def parseElems : Nat → Nat → List Char → List Value → Option (List Value × List Char)
  | 0, _, _, _ => none
  | fuel + 1, depth, s, acc =>
    match parseValue fuel depth s with
    | none => none
    | some (v, rest) =>
      match skipSpace rest with
      | [] => none
      | c :: cs =>
        if c.toNat = 44 then parseElems fuel depth (skipSpace cs) (acc ++ [v])
        else if c.toNat = 93 then some (acc ++ [v], cs)
        else none
/-- The members of an object from the quote of a key on, up to and including
the closing brace; a key that occurs again replaces the earlier value. -/
def parseMembers : Nat → Nat → List Char → GoMap Value → Option (GoMap Value × List Char)
  | 0, _, _, _ => none
  | fuel + 1, depth, s, acc =>
    match s with
    | [] => none
    | q :: cs =>
      if q.toNat ≠ 34 then none
      else
        match scanString (cs.length + 1) cs [] with
        | none => none
        | some (k, rest) =>
          match skipSpace rest with
          | [] => none
          | col :: r1 =>
            if col.toNat ≠ 58 then none
            else
              match parseValue fuel depth (skipSpace r1) with
              | none => none
              | some (v, r2) =>
                match skipSpace r2 with
                | [] => none
                | c :: r3 =>
                  if c.toNat = 44 then parseMembers fuel depth (skipSpace r3) (acc.set ⟨k⟩ v)
                  else if c.toNat = 125 then some (acc.set ⟨k⟩ v, r3)
                  else none
end

/-- Go `json.Unmarshal(data, &row)` with `row` a nil `Row`: `none` when it
returns an error (invalid JSON, a number out of range, or a value that is
neither an object nor `null`), `some none` when the input is `null` and the
row stays nil, `some (some m)` for an object. -/
def Unmarshal (data : String) : Option (Option Row) :=
  let s := skipSpace data.data
  match parseValue (2 * s.length + 2) 0 s with
  | none => none
  | some (v, rest) =>
    if skipSpace rest ≠ [] then none
    else
      match v with
      | .obj m => some (some m)
      | .null => some none
      | _ => none

/-! ## fmt and encoding/json on values

The text of a `float64` is not computed: `fmt.Sprintf("%v", f)` and the JSON
encoding of a finite `f` are the parameters `sprintFloat` and `encodeFloat`. -/

mutual
/-- Go `fmt.Sprintf("%v", v)`; a map is printed with its keys sorted. -/
def sprintV (sprintFloat : Float64 → String) : Value → String
  | .int i => toString i
  | .float f => sprintFloat f
  | .bool b => sprintBool b
  | .str s => s
  | .null => "<nil>"
  | .arr xs => "[" ++ " ".intercalate (sprintElems sprintFloat xs) ++ "]"
  | .obj m =>
    "map[" ++ " ".intercalate
      ((sortByKey (sprintMembers sprintFloat m)).map fun kv => kv.1 ++ ":" ++ kv.2) ++ "]"
  | .strMap none => "map[]"
  | .strMap (some m) =>
    "map[" ++ " ".intercalate ((sortByKey m).map fun kv => kv.1 ++ ":" ++ kv.2) ++ "]"
def sprintElems (sprintFloat : Float64 → String) : List Value → List String
  | [] => []
  | x :: xs => sprintV sprintFloat x :: sprintElems sprintFloat xs
def sprintMembers (sprintFloat : Float64 → String) :
    List (String × Value) → List (String × String)
  | [] => []
  | (k, v) :: m => (k, sprintV sprintFloat v) :: sprintMembers sprintFloat m
end

mutual
/-- Go `json.Marshal(v)`: `none` when it returns an error, which it does for a
NaN or an infinity; an object is written with its keys sorted. -/
def marshalValue (encodeFloat : Float64 → String) : Value → Option String
  | .int i => some (toString i)
  | .float .nan => none
  | .float (.inf _) => none
  | .float f => some (encodeFloat f)
  | .bool b => some (sprintBool b)
  | .str s => some (jsonString s)
  | .null => some "null"
  | .arr xs =>
    match marshalElems encodeFloat xs with
    | none => none
    | some ts => some ("[" ++ ",".intercalate ts ++ "]")
  | .obj m =>
    match marshalMembers encodeFloat m with
    | none => none
    | some ts => some (jsonObject (sortByKey ts))
  | .strMap m => some (marshalErrorMap m)
def marshalElems (encodeFloat : Float64 → String) : List Value → Option (List String)
  | [] => some []
  | x :: xs =>
    match marshalValue encodeFloat x, marshalElems encodeFloat xs with
    | some t, some ts => some (t :: ts)
    | _, _ => none
def marshalMembers (encodeFloat : Float64 → String) :
    List (String × Value) → Option (List (String × String))
  | [] => some []
  | (k, v) :: m =>
    match marshalValue encodeFloat v, marshalMembers encodeFloat m with
    | some t, some ts => some ((k, t) :: ts)
    | _, _ => none
end

/-! ## processJSONL -/

/-- Go `strings.Split(s, "\n")`. -/
def Split : List Char → List (List Char)
  | [] => [[]]
  | c :: cs =>
    if c.toNat = 10 then [] :: Split cs
    else
      match Split cs with
      | [] => [[c]]
      | l :: ls => (c :: l) :: ls

/-- The text `inferTypeAndSet` is given for a decoded value: the string itself,
or `fmt.Sprintf("%v", value)` for any other value. -/
def strValue (sprintFloat : Float64 → String) : Value → String
  | .str s => s
  | v => sprintV sprintFloat v

/-- Body of the loop `for _, line := range lines` of `processJSONL`: the line
appended to `processedLines`. The keys are visited in the order of the
bindings; Go visits them in an unspecified order, each once, and the fields
are annotated independently of one another. The error of `json.Marshal` is
discarded, which leaves `newLine` nil and appends the empty string. -/
def processLine (sprintFloat encodeFloat : Float64 → String) (line : String) :
    Except Abort String :=
  match Unmarshal line with
  | none => .error .jsonUnmarshal
  | some none => .error .nilMapAssign
  | some (some row) =>
    let st := row.foldl (fun st kv => annotateField (strValue sprintFloat kv.2) kv.1 st)
      { row := row }
    let row1 := st.row.set "_error" (.strMap st.errorMap)
    let row2 := row1.set "has_error" (.bool st.hasError)
    match marshalValue encodeFloat (.obj row2) with
    | none => .ok ""
    | some newLine => .ok newLine

/-- Loop over the lines, collecting `processedLines`. -/
def processLines (sprintFloat encodeFloat : Float64 → String) :
    List String → Except Abort (List String)
  | [] => .ok []
  | line :: lines =>
    match processLine sprintFloat encodeFloat line with
    | .error e => .error e
    | .ok out =>
      match processLines sprintFloat encodeFloat lines with
      | .error e => .error e
      | .ok outs => .ok (out :: outs)

/-- Function `processJSONL`, from the content to the `processedLines` that are
joined with newlines and written. -/
def processJSONL (sprintFloat encodeFloat : Float64 → String) (content : String) :
    Except Abort (List String) :=
  processLines sprintFloat encodeFloat ((Split content.data).map String.mk)

/-! ## Vocabulary of the statements -/

/-- A decimal digit `0`..`9`. -/
def IsDigit (c : Char) : Prop := 48 ≤ c.toNat ∧ c.toNat ≤ 57

instance (c : Char) : Decidable (IsDigit c) := by unfold IsDigit; infer_instance

/-- The number a digit sequence denotes in base 10, continuing from `acc`. -/
def decValueFrom (acc : Nat) (ds : List Char) : Nat :=
  ds.foldl (fun n c => n * 10 + (c.toNat - 48)) acc

/-- The number a digit sequence denotes in base 10. -/
def decValue (ds : List Char) : Nat := decValueFrom 0 ds

/-- One or more decimal digits. -/
def IsDigits (ds : List Char) : Prop := ds ≠ [] ∧ ∀ c ∈ ds, IsDigit c

/-- The token is an optional sign from `signs` followed by one or more decimal
digits, and the number `n` it denotes fits a signed 64-bit integer. -/
def SignedDigits (signs : List (List Char)) (t : String) (n : Int) : Prop :=
  ∃ sign ds, t.data = sign ++ ds ∧ sign ∈ signs ∧ IsDigits ds ∧
    n = (if sign = ['-'] then -(decValue ds : Int) else decValue ds) ∧
    -(2 : Int) ^ 63 ≤ n ∧ n < (2 : Int) ^ 63

/-- An optional leading `-`, then digits: the integer form of the specification. -/
def MinusDigits (t : String) (n : Int) : Prop := SignedDigits [[], ['-']] t n

/-- An optional leading `-` or `+`, then digits: the form `Atoi` accepts. -/
def SignDigits (t : String) (n : Int) : Prop := SignedDigits [[], ['-'], ['+']] t n

/-- The value is one of the four kinds `inferTypeAndSet` stores. -/
def Value.IsTyped : Value → Prop
  | .int _ | .float _ | .bool _ | .str _ => True
  | _ => False

/-- The value is a Float, a Boolean or a Text: the kinds of the rules after the
integer rule. -/
def Value.IsLaterKind : Value → Prop
  | .float _ | .bool _ | .str _ => True
  | _ => False

/-- The error mapping and the flag describe the empty tokens among the
(header, token) pairs `pairs`: the flag is set exactly when some token is
empty; without an empty token the mapping is the nil map; with one, it is a
map whose keys are exactly the headers of the empty tokens, each bound to
"Not inferable". -/
def Describes (pairs : List (String × String)) (errorMap : ErrorMap) (hasError : Bool) : Prop :=
  (hasError = true ↔ ∃ k, (k, "") ∈ pairs) ∧
  (hasError = false → errorMap = none) ∧
  (hasError = true → ∃ m, errorMap = some m ∧ (m.map Prod.fst).Nodup ∧
    ∀ k v, (k, v) ∈ m ↔ v = "Not inferable" ∧ (k, "") ∈ pairs)

/-- The value `inferTypeAndSet` stores for a token, `none` when it returns the
error: read off a call on the empty row. -/
def inferred (t : String) : Option Value := (inferTypeAndSet t "" []).1.get? ""

/-- The record `processJSONL` builds from a decoded row: every value whose text
infers is replaced by the typed value, the others stay, and the two synthetic
fields are set. -/
def annotated (sprintFloat : Float64 → String) (row : Row) (errorMap : ErrorMap)
    (hasError : Bool) : Row :=
  GoMap.set
    (GoMap.set (row.map fun kv => (kv.1, (inferred (strValue sprintFloat kv.2)).getD kv.2))
      "_error" (.strMap errorMap))
    "has_error" (.bool hasError)

/-! ## Lemmas on `strconv.Atoi` -/

lemma decDigit_of_isDigit {c : Char} (h : IsDigit c) : decDigit c = some (c.toNat - 48) := by
  unfold decDigit; exact if_pos h

lemma decDigit_eq_some {c : Char} {d : Nat} (h : decDigit c = some d) :
    IsDigit c ∧ d = c.toNat - 48 ∧ d ≤ 9 := by
  unfold decDigit at h
  split at h
  · rename_i hc
    simp only [Option.some.injEq] at h
    exact ⟨hc, h.symm, by omega⟩
  · simp at h

lemma decValueFrom_cons (acc : Nat) (c : Char) (cs : List Char) :
    decValueFrom acc (c :: cs) = decValueFrom (acc * 10 + (c.toNat - 48)) cs := rfl

lemma le_decValueFrom (acc : Nat) (ds : List Char) : acc ≤ decValueFrom acc ds := by
  induction ds generalizing acc with
  | nil => exact le_refl _
  | cons c cs ih =>
    rw [decValueFrom_cons]
    exact le_trans (by omega) (ih _)

lemma decValueFrom_lt (acc : Nat) (ds : List Char) (h : ∀ c ∈ ds, IsDigit c) :
    decValueFrom acc ds < (acc + 1) * 10 ^ ds.length := by
  induction ds generalizing acc with
  | nil => simp [decValueFrom]
  | cons c cs ih =>
    rw [decValueFrom_cons]
    have hc : IsDigit c := h c (List.mem_cons_self _ _)
    have := ih (acc * 10 + (c.toNat - 48)) (fun x hx => h x (List.mem_cons_of_mem _ hx))
    refine lt_of_lt_of_le this ?_
    rw [List.length_cons, pow_succ, mul_comm (10 ^ cs.length) 10, ← mul_assoc]
    apply Nat.mul_le_mul_right
    unfold IsDigit at hc
    omega

lemma atoiLoop_of_digits (ds : List Char) (n : Nat) (h : ∀ c ∈ ds, IsDigit c) :
    atoiLoop ds (n : Int) = .ok ((decValueFrom n ds : Nat) : Int) := by
  induction ds generalizing n with
  | nil => rfl
  | cons c cs ih =>
    have hc : IsDigit c := h c (List.mem_cons_self _ _)
    rw [atoiLoop, decDigit_of_isDigit hc, decValueFrom_cons]
    have := ih (n * 10 + (c.toNat - 48)) (fun x hx => h x (List.mem_cons_of_mem _ hx))
    rw [← this]
    congr 1

lemma atoiLoop_ok {ds : List Char} {n : Nat} {r : Int} (h : atoiLoop ds (n : Int) = .ok r) :
    (∀ c ∈ ds, IsDigit c) ∧ r = ((decValueFrom n ds : Nat) : Int) := by
  induction ds generalizing n with
  | nil =>
    simp only [atoiLoop, Except.ok.injEq] at h
    exact ⟨by simp, by simp [decValueFrom, h]⟩
  | cons c cs ih =>
    rw [atoiLoop] at h
    cases hd : decDigit c with
    | none => rw [hd] at h; simp at h
    | some d =>
      rw [hd] at h
      obtain ⟨hc, hdv, -⟩ := decDigit_eq_some hd
      have h2 : atoiLoop cs ((n * 10 + (c.toNat - 48) : Nat) : Int) = .ok r := by
        rw [← h, hdv]; congr 1
      obtain ⟨hall, hr⟩ := ih h2
      refine ⟨?_, by rw [decValueFrom_cons]; exact hr⟩
      intro x hx
      rcases List.mem_cons.1 hx with rfl | hx
      · exact hc
      · exact hall x hx

lemma parseUintLoop_of_digits (ds : List Char) (n : Nat) (h : ∀ c ∈ ds, IsDigit c)
    (hb : decValueFrom n ds < 2 ^ 64) : parseUintLoop ds n = .ok (decValueFrom n ds) := by
  induction ds generalizing n with
  | nil => rfl
  | cons c cs ih =>
    have hc : IsDigit c := h c (List.mem_cons_self _ _)
    rw [decValueFrom_cons] at hb ⊢
    have hle := le_decValueFrom (n * 10 + (c.toNat - 48)) cs
    rw [parseUintLoop, decDigit_of_isDigit hc]
    simp only [maxUint64]
    norm_num at hb ⊢
    have h1 : ¬ (1844674407370955162 ≤ n) := by omega
    have h2 : n * 10 % 18446744073709551616 = n * 10 := Nat.mod_eq_of_lt (by omega)
    have h3 : (n * 10 + (c.toNat - 48)) % 18446744073709551616 = n * 10 + (c.toNat - 48) :=
      Nat.mod_eq_of_lt (by omega)
    rw [if_neg h1, h2, h3, if_neg (by omega)]
    exact ih _ (fun x hx => h x (List.mem_cons_of_mem _ hx)) (by norm_num; exact hb)

lemma parseUintLoop_ok {ds : List Char} {n r : Nat} (h : parseUintLoop ds n = .ok r) :
    (∀ c ∈ ds, IsDigit c) ∧ r = decValueFrom n ds := by
  induction ds generalizing n with
  | nil =>
    simp only [parseUintLoop, Except.ok.injEq] at h
    exact ⟨by simp, by simp [decValueFrom, h]⟩
  | cons c cs ih =>
    rw [parseUintLoop] at h
    cases hd : decDigit c with
    | none => rw [hd] at h; simp at h
    | some d =>
      rw [hd] at h
      obtain ⟨hc, hdv, hd9⟩ := decDigit_eq_some hd
      simp only [maxUint64] at h
      norm_num at h
      split at h
      · simp at h
      · rename_i h1
        have h2 : n * 10 % 18446744073709551616 = n * 10 := Nat.mod_eq_of_lt (by omega)
        rw [h2] at h
        split at h
        · simp at h
        · rename_i h3
          have h4 : (n * 10 + d) % 18446744073709551616 = n * 10 + d := by omega
          rw [h4, hdv] at h
          obtain ⟨hall, hr⟩ := ih h
          refine ⟨?_, by rw [decValueFrom_cons]; exact hr⟩
          intro x hx
          rcases List.mem_cons.1 hx with rfl | hx
          · exact hc
          · exact hall x hx

lemma length_le_utf8Len (l : List Char) : l.length ≤ String.utf8Len l := by
  induction l with
  | nil => simp
  | cons c cs ih =>
    have := Char.utf8Size_pos c
    simp only [List.length_cons, String.utf8Len_cons]
    omega

lemma isDigit_ne_sign {c : Char} (h : IsDigit c) : c ≠ '-' ∧ c ≠ '+' := by
  unfold IsDigit at h
  constructor <;> (rintro rfl; revert h; decide)

lemma head?_of_isDigits {ds : List Char} (h : IsDigits ds) :
    ∃ c cs, ds = c :: cs ∧ IsDigit c := by
  obtain ⟨hne, hall⟩ := h
  cases ds with
  | nil => exact absurd rfl hne
  | cons c cs => exact ⟨c, cs, rfl, hall c (List.mem_cons_self _ _)⟩

/-- The integer an optionally signed digit sequence denotes. -/
lemma ParseInt_of_digits (sign ds : List Char) (hs : sign = [] ∨ sign = ['-'] ∨ sign = ['+'])
    (hd : IsDigits ds)
    (hlo : -(2 : Int) ^ 63 ≤ (if sign = ['-'] then -(decValue ds : Int) else decValue ds))
    (hhi : (if sign = ['-'] then -(decValue ds : Int) else decValue ds) < (2 : Int) ^ 63) :
    ParseInt (sign ++ ds) = .ok (if sign = ['-'] then -(decValue ds : Int) else decValue ds) := by
  obtain ⟨c, cs, rfl, hc⟩ := head?_of_isDigits hd
  obtain ⟨hc1, hc2⟩ := isDigit_ne_sign hc
  have hv : decValue (c :: cs) < 2 ^ 64 := by
    rcases hs with rfl | rfl | rfl <;> simp at hlo hhi <;> norm_num at hlo hhi ⊢ <;> omega
  have hpu : ParseUint (c :: cs) = .ok (decValue (c :: cs)) := by
    unfold ParseUint
    rw [if_neg (by simp)]
    exact parseUintLoop_of_digits _ 0 hd.2 hv
  rcases hs with rfl | rfl | rfl
  · simp only [ParseInt, List.nil_append, List.head?_cons, Option.some.injEq, hc1, hc2,
      or_self, if_false, reduceCtorEq, if_neg, not_false_eq_true, hpu, intSize]
    simp at hlo hhi ⊢
    rw [if_neg (by omega)]
    simp [toInt64]
    omega
  · simp [ParseInt, intSize] at hlo hhi ⊢
    rw [hpu]
    norm_num at hlo hhi ⊢
    rw [if_neg (by omega)]
    simp [toInt64]
    omega
  · simp [ParseInt, intSize] at hlo hhi ⊢
    rw [hpu]
    norm_num at hlo hhi ⊢
    rw [if_neg (by omega)]
    simp [toInt64]
    omega

lemma ParseInt_ok {s : List Char} {n : Int} (h : ParseInt s = .ok n) :
    ∃ sign ds, s = sign ++ ds ∧ (sign = [] ∨ sign = ['-'] ∨ sign = ['+']) ∧ IsDigits ds ∧
      n = (if sign = ['-'] then -(decValue ds : Int) else decValue ds) ∧
      -(2 : Int) ^ 63 ≤ n ∧ n < (2 : Int) ^ 63 := by
  unfold ParseInt at h
  split at h
  · simp at h
  · rename_i hne
    -- the unsigned part
    have key : ∀ s1 : List Char, ∀ neg : Bool,
        (match ParseUint s1 with
          | .error .ErrSyntax => (.error .ErrSyntax : Except NumError Int)
          | r =>
            let un : Nat := match r with
              | .ok n => n
              | .error _ => maxUint64
            let cutoff : Nat := 2 ^ (intSize - 1)
            if ¬ neg ∧ un ≥ cutoff then .error .ErrRange
            else if neg ∧ un > cutoff then .error .ErrRange
            else
              let n := toInt64 un
              .ok (if neg then toInt64 (-n) else n)) = .ok n →
        IsDigits s1 ∧ n = (if neg then -(decValue s1 : Int) else decValue s1) ∧
          -(2 : Int) ^ 63 ≤ n ∧ n < (2 : Int) ^ 63 := by
      intro s1 neg h
      cases hpu : ParseUint s1 with
      | error e =>
        rw [hpu] at h
        cases e with
        | ErrSyntax => simp at h
        | ErrRange =>
          exfalso
          cases neg <;> simp [maxUint64, intSize] at h
      | ok un =>
        rw [hpu] at h
        unfold ParseUint at hpu
        split at hpu
        · simp at hpu
        · rename_i hs1
          obtain ⟨hall, hun⟩ := parseUintLoop_ok hpu
          refine ⟨⟨hs1, hall⟩, ?_⟩
          have hv : decValue s1 = un := hun.symm
          rw [hv]
          cases neg
          · simp [intSize, toInt64] at h ⊢
            split at h
            · simp at h
            · simp only [Except.ok.injEq] at h
              omega
          · simp [intSize, toInt64] at h ⊢
            split at h
            · simp at h
            · simp only [Except.ok.injEq] at h
              omega
    cases s with
    | nil => exact absurd rfl hne
    | cons c cs =>
      by_cases hm : c = '-'
      · subst hm
        obtain ⟨h1, h2, h3⟩ := key cs true (by simpa using h)
        exact ⟨['-'], cs, rfl, Or.inr (Or.inl rfl), h1, by simpa using h2, h3⟩
      · by_cases hp : c = '+'
        · subst hp
          obtain ⟨h1, h2, h3⟩ := key cs false (by simpa using h)
          exact ⟨['+'], cs, rfl, Or.inr (Or.inr rfl), h1, by simpa using h2, h3⟩
        · obtain ⟨h1, h2, h3⟩ := key (c :: cs) false (by simpa [hm, hp] using h)
          exact ⟨[], c :: cs, rfl, Or.inl rfl, h1, by simpa using h2, h3⟩

/-- Both paths of `Atoi` return the integer an optionally signed digit sequence
denotes, when it fits an `int`. -/
lemma Atoi_of_digits (sign ds : List Char) (hs : sign = [] ∨ sign = ['-'] ∨ sign = ['+'])
    (hd : IsDigits ds)
    (hlo : -(2 : Int) ^ 63 ≤ (if sign = ['-'] then -(decValue ds : Int) else decValue ds))
    (hhi : (if sign = ['-'] then -(decValue ds : Int) else decValue ds) < (2 : Int) ^ 63) :
    Atoi ⟨sign ++ ds⟩ = .ok (if sign = ['-'] then -(decValue ds : Int) else decValue ds) := by
  unfold Atoi
  simp only []
  split
  · obtain ⟨c, cs, rfl, hc⟩ := head?_of_isDigits hd
    obtain ⟨hc1, hc2⟩ := isDigit_ne_sign hc
    have hl := atoiLoop_of_digits (c :: cs) 0 hd.2
    simp only [Nat.cast_zero] at hl
    rcases hs with rfl | rfl | rfl
    · simp [hc1, hc2, hl, decValue]
    · simp [hl, decValue]
    · simp [hl, decValue]
  · exact ParseInt_of_digits sign ds hs hd hlo hhi

/-- Whatever `Atoi` accepts is an optionally signed digit sequence whose value
fits an `int`, and the result is that value. -/
lemma Atoi_ok {s : String} {n : Int} (h : Atoi s = .ok n) :
    ∃ sign ds, s.data = sign ++ ds ∧ (sign = [] ∨ sign = ['-'] ∨ sign = ['+']) ∧ IsDigits ds ∧
      n = (if sign = ['-'] then -(decValue ds : Int) else decValue ds) ∧
      -(2 : Int) ^ 63 ≤ n ∧ n < (2 : Int) ^ 63 := by
  unfold Atoi at h
  simp only [] at h
  split at h
  · rename_i hlen
    have hlen : 0 < s.utf8ByteSize ∧ s.utf8ByteSize < 19 := by
      simpa [intSize] using hlen
    obtain ⟨l⟩ := s
    rw [String.utf8ByteSize_mk] at hlen
    have hll := length_le_utf8Len l
    simp only [] at h hll ⊢
    -- the digit loop over the part after the sign
    have key : ∀ s1 : List Char, s1 ≠ [] → s1.length ≤ 18 → ∀ m : Int,
        atoiLoop s1 0 = .ok m → IsDigits s1 ∧ m = decValue s1 ∧ (decValue s1 : Int) < 10 ^ 18 := by
      intro s1 hne hlen1 m hm
      have hm0 : atoiLoop s1 ((0 : Nat) : Int) = .ok m := by simpa using hm
      obtain ⟨hall, hmv⟩ := atoiLoop_ok hm0
      refine ⟨⟨hne, hall⟩, hmv, ?_⟩
      have hlt := decValueFrom_lt 0 s1 hall
      have hpow : 10 ^ s1.length ≤ 10 ^ 18 := Nat.pow_le_pow_right (by norm_num) hlen1
      have : decValue s1 < 10 ^ 18 := by
        unfold decValue
        omega
      exact_mod_cast this
    cases l with
    | nil => simp at hlen
    | cons c cs =>
      simp only [List.length_cons] at hll
      by_cases hm : c = '-'
      · subst hm
        simp at h
        split at h
        · simp at h
        · rename_i hcs
          cases hl : atoiLoop cs 0 with
          | error e => rw [hl] at h; simp at h
          | ok m =>
            rw [hl] at h
            simp only [Except.ok.injEq] at h
            obtain ⟨h1, h2, h3⟩ := key cs (by rintro rfl; simp at hcs) (by omega) m hl
            refine ⟨['-'], cs, rfl, Or.inr (Or.inl rfl), h1, by simp [← h, h2], ?_, ?_⟩ <;>
              norm_num at h3 ⊢ <;> omega
      · by_cases hp : c = '+'
        · subst hp
          simp at h
          split at h
          · simp at h
          · rename_i hcs
            cases hl : atoiLoop cs 0 with
            | error e => rw [hl] at h; simp at h
            | ok m =>
              rw [hl] at h
              simp only [Except.ok.injEq] at h
              obtain ⟨h1, h2, h3⟩ := key cs (by rintro rfl; simp at hcs) (by omega) m hl
              refine ⟨['+'], cs, rfl, Or.inr (Or.inr rfl), h1, by simp [← h, h2], ?_, ?_⟩ <;>
                norm_num at h3 ⊢ <;> omega
        · simp [hm, hp] at h
          cases hl : atoiLoop (c :: cs) 0 with
          | error e => rw [hl] at h; simp at h
          | ok m =>
            rw [hl] at h
            simp only [Except.ok.injEq] at h
            obtain ⟨h1, h2, h3⟩ := key (c :: cs) (by simp) (by simp only [List.length_cons]; omega) m hl
            refine ⟨[], c :: cs, rfl, Or.inl rfl, h1, by simp [← h, h2], ?_, ?_⟩ <;>
              norm_num at h3 ⊢ <;> omega
  · exact ParseInt_ok h

/-! ## Lemmas on maps and on `inferTypeAndSet` -/

lemma GoMap.get?_set {α : Type} (m : GoMap α) (k : String) (v : α) :
    (m.set k v).get? k = some v := by
  induction m with
  | nil => simp [GoMap.set, GoMap.get?]
  | cons kv m ih =>
    obtain ⟨k1, v1⟩ := kv
    by_cases h : k1 = k
    · simp [GoMap.set, GoMap.get?, h]
    · simp [GoMap.set, GoMap.get?, h, ih]

lemma GoMap.set_inj {α : Type} {m : GoMap α} {k : String} {v w : α}
    (h : m.set k v = m.set k w) : v = w := by
  have := congrArg (fun m => GoMap.get? m k) h
  simpa [GoMap.get?_set] using this

lemma Atoi_empty : Atoi "" = .error .ErrSyntax := by decide

lemma ParseFloat_empty : ParseFloat "" = .error .ErrSyntax := by decide

lemma inferTypeAndSet_empty (key : String) (row : Row) :
    inferTypeAndSet "" key row = (row, some "Not inferable") := by
  simp [inferTypeAndSet, Atoi_empty, ParseFloat_empty]

lemma inferTypeAndSet_int {t : String} {i : Int} (h : Atoi t = .ok i) (key : String)
    (row : Row) : inferTypeAndSet t key row = (row.set key (.int i), none) := by
  simp [inferTypeAndSet, h]

/-- The outcome of `inferTypeAndSet`, rule by rule. -/
lemma inferTypeAndSet_cases (t key : String) (row : Row) :
    (∃ i, Atoi t = .ok i ∧ inferTypeAndSet t key row = (row.set key (.int i), none)) ∨
    ((∀ i, Atoi t ≠ .ok i) ∧
      ((∃ f, ParseFloat t = .ok f ∧ inferTypeAndSet t key row = (row.set key (.float f), none)) ∨
       ((∀ f, ParseFloat t ≠ .ok f) ∧
        ((t = "true" ∧ inferTypeAndSet t key row = (row.set key (.bool true), none)) ∨
         (t = "false" ∧ inferTypeAndSet t key row = (row.set key (.bool false), none)) ∨
         (t ≠ "true" ∧ t ≠ "false" ∧ t ≠ "" ∧
            inferTypeAndSet t key row = (row.set key (.str t), none)) ∨
         (t = "" ∧ inferTypeAndSet t key row = (row, some "Not inferable")))))) := by
  cases hA : Atoi t with
  | ok i => exact Or.inl ⟨i, rfl, inferTypeAndSet_int hA key row⟩
  | error e =>
    refine Or.inr ⟨by simp, ?_⟩
    cases hF : ParseFloat t with
    | ok f => exact Or.inl ⟨f, rfl, by simp [inferTypeAndSet, hA, hF]⟩
    | error e2 =>
      refine Or.inr ⟨by simp, ?_⟩
      by_cases h1 : t = "true"
      · exact Or.inl ⟨h1, by subst h1; simp [inferTypeAndSet, hA, hF]⟩
      · by_cases h2 : t = "false"
        · exact Or.inr (Or.inl ⟨h2, by subst h2; simp [inferTypeAndSet, hA, hF]⟩)
        · by_cases h3 : t = ""
          · exact Or.inr (Or.inr (Or.inr ⟨h3, by subst h3; exact inferTypeAndSet_empty key row⟩))
          · exact Or.inr (Or.inr (Or.inl ⟨h1, h2, h3, by simp [inferTypeAndSet, hA, hF, h1, h2, h3]⟩))

/-- A non-empty token is stored by one of the four rules. -/
lemma inferTypeAndSet_of_ne {t : String} (ht : t ≠ "") (key : String) (row : Row) :
    ∃ v, v.IsTyped ∧ inferTypeAndSet t key row = (row.set key v, none) := by
  rcases inferTypeAndSet_cases t key row with ⟨i, -, h⟩ | ⟨-, ⟨f, -, h⟩ | ⟨-, h⟩⟩
  · exact ⟨_, by trivial, h⟩
  · exact ⟨_, by trivial, h⟩
  · rcases h with ⟨-, h⟩ | ⟨-, h⟩ | ⟨-, -, -, h⟩ | ⟨h, -⟩
    · exact ⟨_, by trivial, h⟩
    · exact ⟨_, by trivial, h⟩
    · exact ⟨_, by trivial, h⟩
    · exact absurd h ht

/-! ## Claims on `inferTypeAndSet` -/

/-- C1: `inferTypeAndSet` fails exactly on the empty token. It then returns the
error "Not inferable" and leaves the row as it was; every non-empty token
stores a typed value (Integer, Float, Boolean or Text) under the key and
returns no error. -/
theorem inferTypeAndSet_fails_iff_empty (t key : String) (row : Row) :
    ((inferTypeAndSet t key row).2 ≠ none ↔ t = "") ∧
    (inferTypeAndSet t key row = (row, some "Not inferable") ↔ t = "") ∧
    (t ≠ "" → ∃ v, v.IsTyped ∧ inferTypeAndSet t key row = (row.set key v, none)) := by
  have hne : t ≠ "" → ∃ v, v.IsTyped ∧ inferTypeAndSet t key row = (row.set key v, none) :=
    fun ht => inferTypeAndSet_of_ne ht key row
  refine ⟨⟨?_, ?_⟩, ⟨?_, ?_⟩, hne⟩
  · intro h
    by_contra ht
    obtain ⟨v, -, hv⟩ := hne ht
    rw [hv] at h
    exact h rfl
  · rintro rfl
    rw [inferTypeAndSet_empty]
    simp
  · intro h
    by_contra ht
    obtain ⟨v, -, hv⟩ := hne ht
    rw [hv] at h
    simp at h
  · rintro rfl
    exact inferTypeAndSet_empty key row

/-- C2: a token made of an optional leading `-` and one or more decimal digits
whose value `n` fits a signed 64-bit integer is stored as Integer `n`. -/
theorem inferTypeAndSet_integer (t : String) (n : Int) (h : MinusDigits t n) (key : String)
    (row : Row) : inferTypeAndSet t key row = (row.set key (.int n), none) := by
  obtain ⟨sign, ds, hdata, hsign, hd, hn, hlo, hhi⟩ := h
  have hs : sign = [] ∨ sign = ['-'] ∨ sign = ['+'] := by
    simp only [List.mem_cons, List.mem_singleton, List.not_mem_nil, or_false] at hsign
    rcases hsign with h | h
    · exact Or.inl h
    · exact Or.inr (Or.inl h)
  have ht : t = ⟨sign ++ ds⟩ := by rw [← hdata]
  rw [hn] at hlo hhi
  have := Atoi_of_digits sign ds hs hd hlo hhi
  rw [← ht, ← hn] at this
  exact inferTypeAndSet_int this key row

/-- Witness of C2: the tokens "42" and "-3". -/
theorem inferTypeAndSet_integer_witness :
    MinusDigits "42" 42 ∧ inferTypeAndSet "42" "k" [] = ([("k", .int 42)], none) ∧
    MinusDigits "-3" (-3) ∧ inferTypeAndSet "-3" "k" [] = ([("k", .int (-3))], none) := by
  have h1 : MinusDigits "42" 42 :=
    ⟨[], ['4', '2'], rfl, by simp, ⟨by simp, by decide⟩, by decide, by decide, by decide⟩
  have h2 : MinusDigits "-3" (-3) :=
    ⟨['-'], ['3'], rfl, by simp, ⟨by simp, by decide⟩, by decide, by decide, by decide⟩
  exact ⟨h1, inferTypeAndSet_integer "42" 42 h1 "k" [], h2,
    inferTypeAndSet_integer "-3" (-3) h2 "k" []⟩

/-- Counterexample to C9 as stated: the token "+5" starts with a sign other
than `-`, so it is not of the stated form, and yet it is stored as Integer 5. -/
theorem inferTypeAndSet_plus_sign_counterexample :
    inferTypeAndSet "+5" "k" [] = ([("k", .int 5)], none) ∧ ¬ ∃ n, MinusDigits "+5" n := by
  refine ⟨by rfl, ?_⟩
  rintro ⟨n, sign, ds, hdata, hsign, ⟨hne, hall⟩, -⟩
  simp only [List.mem_cons, List.mem_singleton, List.not_mem_nil, or_false] at hsign
  have hd : "+5".data = ['+', '5'] := rfl
  rw [hd] at hdata
  rcases hsign with rfl | rfl
  · have := hall '+' (by rw [List.nil_append] at hdata; rw [← hdata]; simp)
    revert this
    decide
  · simp at hdata

/-- C9, amended: `inferTypeAndSet` stores Integer `n` only for a token made of
an optional leading `-` or `+` and one or more decimal digits whose value `n`
fits a signed 64-bit integer; every token not of that form is given a Float, a
Boolean or a Text, or is the error. -/
theorem inferTypeAndSet_integer_only (t key : String) (row : Row) :
    (∀ n, inferTypeAndSet t key row = (row.set key (.int n), none) → SignDigits t n) ∧
    ((¬ ∃ n, SignDigits t n) →
      inferTypeAndSet t key row = (row, some "Not inferable") ∨
      ∃ v, v.IsLaterKind ∧ inferTypeAndSet t key row = (row.set key v, none)) := by
  have hA : ∀ i, Atoi t = .ok i → SignDigits t i := by
    intro i h
    obtain ⟨sign, ds, h1, h2, h3⟩ := Atoi_ok h
    exact ⟨sign, ds, h1, by simpa using h2, h3⟩
  constructor
  · intro n h
    rcases inferTypeAndSet_cases t key row with ⟨i, hi, h'⟩ | ⟨-, ⟨f, -, h'⟩ | ⟨-, h'⟩⟩
    · rw [h'] at h
      have := GoMap.set_inj (congrArg Prod.fst h)
      simp only [Value.int.injEq] at this
      exact this ▸ hA i hi
    · rw [h'] at h
      have := GoMap.set_inj (congrArg Prod.fst h)
      simp at this
    · rcases h' with ⟨-, h'⟩ | ⟨-, h'⟩ | ⟨-, -, -, h'⟩ | ⟨-, h'⟩
      · rw [h'] at h
        have := GoMap.set_inj (congrArg Prod.fst h)
        simp at this
      · rw [h'] at h
        have := GoMap.set_inj (congrArg Prod.fst h)
        simp at this
      · rw [h'] at h
        have := GoMap.set_inj (congrArg Prod.fst h)
        simp at this
      · rw [h'] at h
        have := congrArg Prod.snd h
        simp at this
  · intro hno
    rcases inferTypeAndSet_cases t key row with ⟨i, hi, -⟩ | ⟨-, ⟨f, -, h'⟩ | ⟨-, h'⟩⟩
    · exact absurd ⟨i, hA i hi⟩ hno
    · exact Or.inr ⟨_, by trivial, h'⟩
    · rcases h' with ⟨-, h'⟩ | ⟨-, h'⟩ | ⟨-, -, -, h'⟩ | ⟨-, h'⟩
      · exact Or.inr ⟨_, by trivial, h'⟩
      · exact Or.inr ⟨_, by trivial, h'⟩
      · exact Or.inr ⟨_, by trivial, h'⟩
      · exact Or.inl h'

/-- Witness of C9, amended: the token "-17" is stored as an Integer and is of
the form, and the token "1.5" is not of the form and is stored as a Float. -/
theorem inferTypeAndSet_integer_only_witness :
    SignDigits "-17" (-17) ∧
    ((¬ ∃ n, SignDigits "1.5" n) ∧
      (inferTypeAndSet "1.5" "k" [] = ([], some "Not inferable") ∨
       ∃ v, v.IsLaterKind ∧ inferTypeAndSet "1.5" "k" [] = (GoMap.set [] "k" v, none))) := by
  have hno : ¬ ∃ n, SignDigits "1.5" n := by
    rintro ⟨n, h⟩
    obtain ⟨sign, ds, hdata, hsign, ⟨hne, hall⟩, -⟩ := h
    have hmem : '.' ∈ sign ++ ds := by rw [← hdata]; decide
    rcases List.mem_append.1 hmem with hm | hm
    · simp only [List.mem_cons, List.mem_singleton, List.not_mem_nil, or_false] at hsign
      rcases hsign with rfl | rfl | rfl <;> revert hm <;> decide
    · have := hall _ hm
      revert this
      decide
  exact ⟨(inferTypeAndSet_integer_only "-17" "k" []).1 (-17) (by rfl), hno,
    (inferTypeAndSet_integer_only "1.5" "k" []).2 hno⟩

/-- C8: of the tokens that parse neither as an integer nor as a floating-point
number, "true" is stored as Boolean true, "false" as Boolean false, and every
other non-empty token as the Text of the token itself; a Boolean is stored
for no token other than "true" and "false". -/
theorem inferTypeAndSet_bool_text (t key : String) (row : Row) :
    (t = "true" → inferTypeAndSet t key row = (row.set key (.bool true), none)) ∧
    (t = "false" → inferTypeAndSet t key row = (row.set key (.bool false), none)) ∧
    ((∀ i, Atoi t ≠ .ok i) → (∀ f, ParseFloat t ≠ .ok f) →
      t ≠ "true" → t ≠ "false" → t ≠ "" →
      inferTypeAndSet t key row = (row.set key (.str t), none)) ∧
    (∀ b, inferTypeAndSet t key row = (row.set key (.bool b), none) →
      (t = "true" ∧ b = true) ∨ (t = "false" ∧ b = false)) := by
  refine ⟨?_, ?_, ?_, ?_⟩
  · rintro rfl
    simp [inferTypeAndSet, show Atoi "true" = .error .ErrSyntax by decide,
      show ParseFloat "true" = .error .ErrSyntax by decide]
  · rintro rfl
    simp [inferTypeAndSet, show Atoi "false" = .error .ErrSyntax by decide,
      show ParseFloat "false" = .error .ErrSyntax by decide]
  · intro hI hF h1 h2 h3
    rcases inferTypeAndSet_cases t key row with ⟨i, hi, -⟩ | ⟨-, ⟨f, hf, -⟩ | ⟨-, h'⟩⟩
    · exact absurd hi (hI i)
    · exact absurd hf (hF f)
    · rcases h' with ⟨h, -⟩ | ⟨h, -⟩ | ⟨-, -, -, h'⟩ | ⟨h, -⟩
      · exact absurd h h1
      · exact absurd h h2
      · exact h'
      · exact absurd h h3
  · intro b h
    rcases inferTypeAndSet_cases t key row with ⟨i, -, h'⟩ | ⟨-, ⟨f, -, h'⟩ | ⟨-, h'⟩⟩
    · rw [h'] at h
      have := GoMap.set_inj (congrArg Prod.fst h)
      simp at this
    · rw [h'] at h
      have := GoMap.set_inj (congrArg Prod.fst h)
      simp at this
    · rcases h' with ⟨ht, h'⟩ | ⟨ht, h'⟩ | ⟨-, -, -, h'⟩ | ⟨-, h'⟩
      · rw [h'] at h
        have := GoMap.set_inj (congrArg Prod.fst h)
        simp only [Value.bool.injEq] at this
        exact Or.inl ⟨ht, this.symm⟩
      · rw [h'] at h
        have := GoMap.set_inj (congrArg Prod.fst h)
        simp only [Value.bool.injEq] at this
        exact Or.inr ⟨ht, this.symm⟩
      · rw [h'] at h
        have := GoMap.set_inj (congrArg Prod.fst h)
        simp at this
      · rw [h'] at h
        have := congrArg Prod.snd h
        simp at this

/-- Witness of C8: "True" parses neither as an integer nor as a float and is
stored as the Text "True"; "true" is stored as Boolean true. -/
theorem inferTypeAndSet_bool_text_witness :
    inferTypeAndSet "True" "k" [] = ([("k", .str "True")], none) ∧
    inferTypeAndSet "true" "k" [] = ([("k", .bool true)], none) :=
  ⟨(inferTypeAndSet_bool_text "True" "k" []).2.2.1
      (by intro i h; rw [show Atoi "True" = .error .ErrSyntax by decide] at h; cases h)
      (by intro f h; rw [show ParseFloat "True" = .error .ErrSyntax by decide] at h; cases h)
      (by decide) (by decide) (by decide),
   (inferTypeAndSet_bool_text "true" "k" []).1 rfl⟩

/-! ## Lemmas on the record loop of `processCSV` -/

lemma annotateField_empty (key : String) (st : Annot) :
    annotateField "" key st =
      { row := st.row, errorMap := some (GoMap.set (st.errorMap.getD []) key "Not inferable"),
        hasError := true } := by
  simp [annotateField, inferTypeAndSet_empty]

lemma annotateField_nonempty {t : String} (ht : t ≠ "") (key : String) (st : Annot) :
    (annotateField t key st).errorMap = st.errorMap ∧
    (annotateField t key st).hasError = st.hasError := by
  obtain ⟨v, -, hv⟩ := inferTypeAndSet_of_ne ht key st.row
  simp [annotateField, hv]

lemma GoMap.set_same {m : GoMap String} {c : String} (hall : ∀ kv ∈ m, kv.2 = c)
    (hnd : (m.map Prod.fst).Nodup) (k : String) :
    ((m.set k c).map Prod.fst).Nodup ∧
    ∀ k1 v1, (k1, v1) ∈ m.set k c ↔ (k1, v1) ∈ m ∨ (k1 = k ∧ v1 = c) := by
  induction m with
  | nil => simp [GoMap.set]
  | cons kv m ih =>
    obtain ⟨k0, v0⟩ := kv
    have hv0 : v0 = c := hall (k0, v0) (List.mem_cons_self _ _)
    simp only [List.map_cons, List.nodup_cons] at hnd
    obtain ⟨ih1, ih2⟩ := ih (fun kv h => hall kv (List.mem_cons_of_mem _ h)) hnd.2
    by_cases h : k0 = k
    · subst h
      subst hv0
      simp only [GoMap.set, if_true]
      refine ⟨by simpa using hnd, ?_⟩
      intro k1 v1
      simp only [List.mem_cons, Prod.mk.injEq]
      tauto
    · simp only [GoMap.set, if_neg h]
      constructor
      · simp only [List.map_cons, List.nodup_cons]
        refine ⟨?_, ih1⟩
        intro hmem
        obtain ⟨⟨k1, v1⟩, hkv, hk⟩ := List.mem_map.1 hmem
        simp only at hk
        subst hk
        rcases (ih2 k1 v1).1 hkv with h' | ⟨h', -⟩
        · exact hnd.1 (List.mem_map.2 ⟨(k1, v1), h', rfl⟩)
        · exact h h'
      · intro k1 v1
        simp only [List.mem_cons, Prod.mk.injEq, ih2]
        tauto

lemma describes_nil : Describes [] none false := by
  refine ⟨by simp, fun _ => rfl, by simp⟩

lemma describes_step {pairs : List (String × String)} {st : Annot}
    (h : Describes pairs st.errorMap st.hasError) (key value : String) :
    Describes (pairs ++ [(key, value)]) (annotateField value key st).errorMap
      (annotateField value key st).hasError := by
  obtain ⟨h1, h2, h3⟩ := h
  by_cases hv : value = ""
  · subst hv
    rw [annotateField_empty]
    simp only []
    refine ⟨by simp, by simp, fun _ => ?_⟩
    cases hE : st.hasError with
    | false =>
      rw [h2 hE]
      have hno : ∀ k, (k, "") ∉ pairs := by
        intro k hk
        have := h1.2 ⟨k, hk⟩
        rw [hE] at this
        cases this
      refine ⟨_, rfl, by simp [GoMap.set], ?_⟩
      intro k v
      simp only [Option.getD_none, GoMap.set, List.mem_singleton, Prod.mk.injEq, List.mem_append]
      constructor
      · rintro ⟨rfl, rfl⟩
        exact ⟨rfl, Or.inr (by simp)⟩
      · rintro ⟨rfl, h | ⟨rfl, -⟩⟩
        · exact absurd h (hno k)
        · exact ⟨rfl, rfl⟩
    | true =>
      obtain ⟨m, hm, hnd, hmem⟩ := h3 hE
      rw [hm]
      have hall : ∀ kv ∈ m, kv.2 = "Not inferable" := by
        rintro ⟨k, v⟩ hkv
        exact ((hmem k v).1 hkv).1
      obtain ⟨s1, s2⟩ := GoMap.set_same hall hnd key
      refine ⟨_, rfl, s1, ?_⟩
      intro k v
      simp only [Option.getD_some, s2, hmem, List.mem_append, List.mem_singleton, Prod.mk.injEq]
      constructor
      · rintro (⟨rfl, h⟩ | ⟨rfl, rfl⟩)
        · exact ⟨rfl, Or.inl h⟩
        · exact ⟨rfl, Or.inr (by simp)⟩
      · rintro ⟨rfl, h | ⟨rfl, -⟩⟩
        · exact Or.inl ⟨rfl, h⟩
        · exact Or.inr ⟨rfl, rfl⟩
  · obtain ⟨e1, e2⟩ := annotateField_nonempty hv key st
    rw [e1, e2]
    have hiff : ∀ k, (k, "") ∈ pairs ++ [(key, value)] ↔ (k, "") ∈ pairs := by
      intro k
      simp only [List.mem_append, List.mem_singleton, Prod.mk.injEq]
      constructor
      · rintro (h | ⟨-, h⟩)
        · exact h
        · exact absurd h.symm hv
      · exact Or.inl
    refine ⟨by simp only [hiff]; exact h1, h2, fun hE => ?_⟩
    obtain ⟨m, hm, hnd, hmem⟩ := h3 hE
    exact ⟨m, hm, hnd, by simpa only [hiff] using hmem⟩

lemma describes_foldl (ps : List (String × String)) :
    ∀ (pairs : List (String × String)) (st : Annot),
      Describes pairs st.errorMap st.hasError →
      Describes (pairs ++ ps)
        (ps.foldl (fun st hv => annotateField hv.2 hv.1 st) st).errorMap
        (ps.foldl (fun st hv => annotateField hv.2 hv.1 st) st).hasError := by
  induction ps with
  | nil => intro pairs st h; simpa using h
  | cons p ps ih =>
    intro pairs st h
    obtain ⟨k, v⟩ := p
    have := ih (pairs ++ [(k, v)]) (annotateField v k st) (describes_step h k v)
    simpa using this

/-- The field loop reads the tokens at the positions of the headers. -/
lemma fieldLoop_eq (record : List String) :
    ∀ (headers : List String) (i : Nat) (st : Annot), i + headers.length ≤ record.length →
      fieldLoop record headers i st =
        .ok ((headers.zip (record.drop i)).foldl (fun st hv => annotateField hv.2 hv.1 st) st) := by
  intro headers
  induction headers with
  | nil => intro i st _; simp [fieldLoop]
  | cons h hs ih =>
    intro i st hlen
    simp only [List.length_cons] at hlen
    have hi : i < record.length := by omega
    have hget : record.get? i = some (record.get ⟨i, hi⟩) := List.get?_eq_get hi
    have hdrop : record.drop i = record.get ⟨i, hi⟩ :: record.drop (i + 1) := by
      rw [List.drop_eq_getElem_cons hi]; rfl
    rw [fieldLoop, hget, hdrop]
    simp only [List.zip_cons_cons, List.foldl_cons]
    exact ih (i + 1) _ (by omega)

/-- A record shorter than the header makes `record[i]` panic. -/
lemma fieldLoop_short (record : List String) :
    ∀ (headers : List String) (i : Nat) (st : Annot), i ≤ record.length →
      record.length < i + headers.length →
      fieldLoop record headers i st = .error .indexOutOfRange := by
  intro headers
  induction headers with
  | nil => intro i st h1 h2; simp at h2; omega
  | cons h hs ih =>
    intro i st h1 h2
    simp only [List.length_cons] at h2
    by_cases hi : i < record.length
    · rw [fieldLoop, List.get?_eq_get hi]
      exact ih (i + 1) _ (by omega) (by omega)
    · rw [fieldLoop, List.get?_eq_none.2 (by omega)]

lemma processRecord_eq (headers record : List String) (hlen : headers.length ≤ record.length) :
    ∃ errorMap hasError, Describes (headers.zip record) errorMap hasError ∧
      processRecord headers record = .ok (record ++ [marshalErrorMap errorMap, sprintBool hasError]) := by
  have h1 := fieldLoop_eq record headers 0 {} (by simpa using hlen)
  have h2 := describes_foldl (headers.zip record) [] {} describes_nil
  simp only [List.drop_zero] at h1
  simp only [List.nil_append] at h2
  exact ⟨_, _, h2, by simp [processRecord, h1]⟩

lemma processRecords_ok (headers : List String) (rows : List (List String))
    (h : ∀ r ∈ rows, headers.length ≤ r.length) :
    ∃ outs, processRecords headers rows = .ok outs ∧
      List.Forall₂ (fun r o => processRecord headers r = .ok o ∧
        ∃ c1 c2, o = r ++ [c1, c2]) rows outs := by
  induction rows with
  | nil => exact ⟨[], rfl, List.Forall₂.nil⟩
  | cons r rows ih =>
    obtain ⟨outs, h1, h2⟩ := ih (fun x hx => h x (List.mem_cons_of_mem _ hx))
    obtain ⟨em, he, -, h3⟩ := processRecord_eq headers r (h r (List.mem_cons_self _ _))
    exact ⟨_ :: outs, by simp [processRecords, h1, h3],
      List.Forall₂.cons ⟨h3, _, _, rfl⟩ h2⟩

lemma ReadAll_ok (headers : List String) (rows : List (List String))
    (h : ∀ r ∈ rows, r.length = headers.length) :
    ReadAll (headers :: rows) = .ok (headers :: rows) := by
  have : (rows.all fun r => decide (r.length = headers.length)) = true := by
    simpa [List.all_eq_true] using h
  simp [ReadAll, this]

lemma ReadAll_bad (headers : List String) (rows : List (List String))
    (h : ∃ r ∈ rows, r.length ≠ headers.length) :
    ReadAll (headers :: rows) = .error .csvFieldCount := by
  have : ¬ (rows.all fun r => decide (r.length = headers.length)) = true := by
    simpa [List.all_eq_true] using h
  simp [ReadAll, this]

/-- A record without an empty header-aligned token gets `null` and "false". -/
lemma processRecord_no_error (headers record : List String)
    (hlen : headers.length ≤ record.length) (hne : ∀ k, (k, "") ∉ headers.zip record) :
    processRecord headers record = .ok (record ++ ["null", "false"]) := by
  obtain ⟨em, he, ⟨d1, d2, -⟩, h⟩ := processRecord_eq headers record hlen
  have hf : he = false := by
    cases he with
    | false => rfl
    | true => obtain ⟨k, hk⟩ := d1.1 rfl; exact absurd hk (hne k)
  subst hf
  rw [h, d2 rfl]
  rfl

lemma processRecords_inv (headers : List String) :
    ∀ (rows outs : List (List String)), processRecords headers rows = .ok outs →
      List.Forall₂ (fun r o => processRecord headers r = .ok o) rows outs := by
  intro rows
  induction rows with
  | nil =>
    intro outs h
    simp only [processRecords, Except.ok.injEq] at h
    subst h
    exact List.Forall₂.nil
  | cons r rows ih =>
    intro outs h
    rw [processRecords] at h
    cases h1 : processRecord headers r with
    | error e => rw [h1] at h; cases h
    | ok o =>
      rw [h1] at h
      cases h2 : processRecords headers rows with
      | error e => rw [h2] at h; cases h
      | ok os =>
        rw [h2] at h
        simp only [Except.ok.injEq] at h
        subst h
        exact List.Forall₂.cons h1 (ih os h2)

/-- What an output of `processCSV` says about the input and the rows. -/
lemma processCSV_inv (headers : List String) (rows out : List (List String))
    (h : processCSV (headers :: rows) = .ok out) :
    (∀ r ∈ rows, r.length = headers.length) ∧
    ∃ outs, out = (headers ++ ["_error", "has_error"]) :: outs ∧
      List.Forall₂ (fun r o => processRecord headers r = .ok o) rows outs := by
  have hall : ∀ r ∈ rows, r.length = headers.length := by
    by_contra hc
    push_neg at hc
    rw [processCSV, ReadAll_bad headers rows hc] at h
    cases h
  refine ⟨hall, ?_⟩
  rw [processCSV, ReadAll_ok headers rows hall] at h
  simp only [] at h
  cases h2 : processRecords headers rows with
  | error e => rw [h2] at h; cases h
  | ok outs =>
    rw [h2] at h
    simp only [Except.ok.injEq] at h
    exact ⟨outs, h.symm, processRecords_inv headers rows outs h2⟩

/-! ## Claims on `processCSV` -/

/-- Counterexample to C3 as stated: the data row has more tokens than the
header, and the transform produces no rows, because `ReadAll` rejects a record
whose number of fields differs from that of the first record. -/
theorem processCSV_long_row_counterexample :
    (∀ r ∈ [["1", "2"]], ["a"].length ≤ r.length) ∧
    processCSV [["a"], ["1", "2"]] = .error .csvFieldCount := by
  decide

/-- C3, amended: when every data row has exactly as many tokens as the header,
`processCSV` produces, in input order, the header followed by "_error" and
"has_error", and then for each data row its own tokens followed by exactly two
cells; the output has as many rows as the input. -/
theorem processCSV_rows (headers : List String) (rows : List (List String))
    (h : ∀ r ∈ rows, r.length = headers.length) :
    ∃ outs, processCSV (headers :: rows) = .ok ((headers ++ ["_error", "has_error"]) :: outs) ∧
      ((headers ++ ["_error", "has_error"]) :: outs).length = (headers :: rows).length ∧
      List.Forall₂ (fun r o => ∃ c1 c2, o = r ++ [c1, c2]) rows outs := by
  obtain ⟨outs, h1, h2⟩ := processRecords_ok headers rows (fun r hr => le_of_eq (h r hr).symm)
  refine ⟨outs, by simp [processCSV, ReadAll_ok headers rows h, h1], ?_, ?_⟩
  · simp [h2.length_eq]
  · exact h2.imp (fun _ _ hro => hro.2)

/-- Witness of C3, amended: a header and two data rows of two tokens each. -/
theorem processCSV_rows_witness :
    ∃ outs, processCSV [["a", "b"], ["5", "x"], ["", "7"]] =
        .ok ((["a", "b"] ++ ["_error", "has_error"]) :: outs) ∧
      ((["a", "b"] ++ ["_error", "has_error"]) :: outs).length =
        ([["a", "b"], ["5", "x"], ["", "7"]] : List (List String)).length ∧
      List.Forall₂ (fun r o => ∃ c1 c2, o = r ++ [c1, c2]) [["5", "x"], ["", "7"]] outs :=
  processCSV_rows ["a", "b"] [["5", "x"], ["", "7"]] (by decide)

/-- Counterexample to C4 as stated: under the header a, b the data row 5, x has
no empty token, and the cell appended for the error mapping is `null`, the
encoding of the nil map, not the empty object. -/
theorem processCSV_null_counterexample :
    processCSV [["a", "b"], ["5", "x"]] =
      .ok [["a", "b", "_error", "has_error"], ["5", "x", "null", "false"]] ∧
    processCSV [["a", "b"], ["5", "x"]] ≠
      .ok [["a", "b", "_error", "has_error"], ["5", "x", "\x7b\x7d", "false"]] := by
  decide

/-- C4, amended: in an output of `processCSV`, the row of a data row in which
no header-aligned token is empty is that data row followed by `null`, the
encoding of the nil error mapping, and by the flag "false". -/
theorem processCSV_no_error_cells (headers : List String) (rows out : List (List String))
    (h : processCSV (headers :: rows) = .ok out) (i : Nat) (record : List String)
    (hi : rows.get? i = some record) (hne : ∀ k, (k, "") ∉ headers.zip record) :
    out.get? (i + 1) = some (record ++ ["null", "false"]) := by
  obtain ⟨hall, outs, rfl, hf⟩ := processCSV_inv headers rows out h
  obtain ⟨hlt, hget⟩ := List.get?_eq_some.1 hi
  have hlt2 : i < outs.length := hf.length_eq ▸ hlt
  have h1 := hf.get hlt hlt2
  rw [hget] at h1
  have hlen : headers.length ≤ record.length :=
    le_of_eq (hall record (hget ▸ List.get_mem rows i hlt)).symm
  rw [processRecord_no_error headers record hlen hne] at h1
  simp only [Except.ok.injEq] at h1
  rw [List.get?_cons_succ, List.get?_eq_get hlt2, ← h1]

/-- Witness of C4, amended: header a, b and data row 5, x. -/
theorem processCSV_no_error_cells_witness :
    processCSV [["a", "b"], ["5", "x"]] =
      .ok [["a", "b", "_error", "has_error"], ["5", "x", "null", "false"]] ∧
    [["a", "b", "_error", "has_error"], ["5", "x", "null", "false"]].get? (0 + 1) =
      some (["5", "x"] ++ ["null", "false"]) :=
  ⟨by decide, processCSV_no_error_cells ["a", "b"] [["5", "x"]] _ (by decide) 0 ["5", "x"] rfl
    (by intro k hk; simp at hk)⟩

/-- C5: for a data row at least as long as the header, the record loop appends
the encoded error mapping and the flag; the flag is "true" exactly when some
header-aligned token is empty, and then the error mapping has as keys exactly
the headers whose token is empty, each bound to "Not inferable". In an output
of `processCSV` the row of that data row ends with these two cells. -/
theorem processRecord_error_cells (headers record : List String)
    (hlen : headers.length ≤ record.length) :
    ∃ errorMap flag,
      processRecord headers record = .ok (record ++ [marshalErrorMap errorMap, flag]) ∧
      (flag = "true" ∨ flag = "false") ∧
      (flag = "true" ↔ ∃ k, (k, "") ∈ headers.zip record) ∧
      (flag = "true" → ∃ m, errorMap = some m ∧ (m.map Prod.fst).Nodup ∧
        ∀ k v, (k, v) ∈ m ↔ v = "Not inferable" ∧ (k, "") ∈ headers.zip record) ∧
      (∀ rows out i, processCSV (headers :: rows) = .ok out → rows.get? i = some record →
        out.get? (i + 1) = some (record ++ [marshalErrorMap errorMap, flag])) := by
  obtain ⟨em, he, ⟨d1, d2, d3⟩, h⟩ := processRecord_eq headers record hlen
  refine ⟨em, sprintBool he, h, ?_, ?_, ?_, ?_⟩
  · cases he <;> simp [sprintBool]
  · rw [← d1]
    cases he <;> simp [sprintBool]
  · intro hflag
    apply d3
    cases he
    · simp [sprintBool] at hflag
    · rfl
  · intro rows out i hout hi
    obtain ⟨-, outs, rfl, hf⟩ := processCSV_inv headers rows out hout
    obtain ⟨hlt, hget⟩ := List.get?_eq_some.1 hi
    have hlt2 : i < outs.length := hf.length_eq ▸ hlt
    have h1 := hf.get hlt hlt2
    rw [hget, h] at h1
    simp only [Except.ok.injEq] at h1
    rw [List.get?_cons_succ, List.get?_eq_get hlt2, ← h1]

/-- Witness of C5: under the header a, b the data row with an empty first token
and 7 gets the error mapping with the key a and the flag "true". -/
theorem processRecord_error_cells_witness :
    (∃ errorMap flag,
      processRecord ["a", "b"] ["", "7"] = .ok (["", "7"] ++ [marshalErrorMap errorMap, flag]) ∧
      (flag = "true" ∨ flag = "false") ∧
      (flag = "true" ↔ ∃ k, (k, "") ∈ ["a", "b"].zip ["", "7"]) ∧
      (flag = "true" → ∃ m, errorMap = some m ∧ (m.map Prod.fst).Nodup ∧
        ∀ k v, (k, v) ∈ m ↔ v = "Not inferable" ∧ (k, "") ∈ ["a", "b"].zip ["", "7"]) ∧
      (∀ rows out i, processCSV (["a", "b"] :: rows) = .ok out → rows.get? i = some ["", "7"] →
        out.get? (i + 1) = some (["", "7"] ++ [marshalErrorMap errorMap, flag]))) ∧
    processRecord ["a", "b"] ["", "7"] =
      .ok ["", "7", "\x7b\"a\":\"Not inferable\"\x7d", "true"] ∧
    processCSV [["a", "b"], ["", "7"]] =
      .ok [["a", "b", "_error", "has_error"],
        ["", "7", "\x7b\"a\":\"Not inferable\"\x7d", "true"]] :=
  ⟨processRecord_error_cells ["a", "b"] ["", "7"] (by decide), by decide, by decide⟩

/-- C7: when some data row has fewer tokens than the header, `processCSV` aborts
and produces no rows, whatever the other rows are: `ReadAll` rejects the
record. The record loop itself would neither pad nor skip such a row: indexing
it at the position of a header it lacks panics. -/
theorem processCSV_short_row (headers : List String) (rows : List (List String))
    (h : ∃ r ∈ rows, r.length < headers.length) :
    processCSV (headers :: rows) = .error .csvFieldCount ∧
    ∀ r ∈ rows, r.length < headers.length →
      processRecord headers r = .error .indexOutOfRange := by
  constructor
  · obtain ⟨r, hr, hlt⟩ := h
    simp [processCSV, ReadAll_bad headers rows ⟨r, hr, by omega⟩]
  · intro r _ hlt
    simp [processRecord, fieldLoop_short r headers 0 {} (by omega) (by omega)]

/-- Witness of C7: a short row between two full ones. -/
theorem processCSV_short_row_witness :
    processCSV [["a", "b"], ["1", "2"], ["3"], ["4", "5"]] = .error .csvFieldCount ∧
    ∀ r ∈ [["1", "2"], ["3"], ["4", "5"]], r.length < ["a", "b"].length →
      processRecord ["a", "b"] r = .error .indexOutOfRange :=
  processCSV_short_row ["a", "b"] [["1", "2"], ["3"], ["4", "5"]] ⟨["3"], by decide, by decide⟩

/-! ## Lemmas on the line loop of `processJSONL` -/

lemma Unmarshal_empty : Unmarshal "" = none := by rfl

lemma processLine_empty (sprintFloat encodeFloat : Float64 → String) :
    processLine sprintFloat encodeFloat "" = .error .jsonUnmarshal := by
  simp [processLine, Unmarshal_empty]

lemma processLines_error (sprintFloat encodeFloat : Float64 → String) (lines : List String)
    (line : String) (e : Abort) (hmem : line ∈ lines)
    (h : processLine sprintFloat encodeFloat line = .error e) :
    ∃ e1, processLines sprintFloat encodeFloat lines = .error e1 := by
  induction lines with
  | nil => simp at hmem
  | cons l ls ih =>
    cases hl : processLine sprintFloat encodeFloat l with
    | error e1 => exact ⟨e1, by simp [processLines, hl]⟩
    | ok out =>
      rcases List.mem_cons.1 hmem with rfl | hmem
      · rw [h] at hl; cases hl
      · obtain ⟨e1, h1⟩ := ih hmem
        exact ⟨e1, by simp [processLines, hl, h1]⟩

/-- After a final newline `strings.Split` returns a last, empty line. -/
lemma Split_append_newline (pre : List Char) :
    ∃ l ls, Split (pre ++ [Char.ofNat 10]) = (l :: ls) ++ [[]] := by
  induction pre with
  | nil => exact ⟨[], [], by decide⟩
  | cons c p ih =>
    obtain ⟨l, ls, h⟩ := ih
    by_cases hc : c.toNat = 10
    · exact ⟨[], l :: ls, by simp [Split, hc, h]⟩
    · exact ⟨c :: l, ls, by simp [Split, hc, h]⟩

/-! ## Claims on `processJSONL` -/

/-- C10: a content with an empty line among the lines `strings.Split` returns
makes `processJSONL` end without output, whatever the other lines are; the
empty content and every content that ends with a newline have such a line. -/
theorem processJSONL_empty_line (sprintFloat encodeFloat : Float64 → String)
    (content : String) :
    ("" ∈ (Split content.data).map String.mk →
      ∃ e, processJSONL sprintFloat encodeFloat content = .error e) ∧
    ((content = "" ∨ ∃ pre, content.data = pre ++ [Char.ofNat 10]) →
      "" ∈ (Split content.data).map String.mk) := by
  constructor
  · intro h
    exact processLines_error sprintFloat encodeFloat _ "" _ h
      (processLine_empty sprintFloat encodeFloat)
  · rintro (rfl | ⟨pre, hpre⟩)
    · decide
    · obtain ⟨l, ls, h⟩ := Split_append_newline pre
      rw [hpre, h]
      simp

/-- Witness of C10: one valid record followed by a newline. -/
theorem processJSONL_empty_line_witness :
    ∃ e, processJSONL (fun _ => "0") (fun _ => "0") "\x7b\"a\":\"x\"\x7d\n" = .error e :=
  (processJSONL_empty_line (fun _ => "0") (fun _ => "0") "\x7b\"a\":\"x\"\x7d\n").1
    ((processJSONL_empty_line (fun _ => "0") (fun _ => "0") "\x7b\"a\":\"x\"\x7d\n").2
      (Or.inr ⟨"\x7b\"a\":\"x\"\x7d".data, rfl⟩))

/-- C6 at its failing input: the line `{"a":"NaN"}` decodes as an object whose
one value infers as a Float, and the output line is empty rather than a
record, because `json.Marshal` refuses the NaN and its error is discarded.
On the line of the specification's example the output is the stated record. -/
theorem processJSONL_nan_line (sprintFloat encodeFloat : Float64 → String) :
    Unmarshal "\x7b\"a\":\"NaN\"\x7d" = some (some [("a", .str "NaN")]) ∧
    inferTypeAndSet "NaN" "a" [("a", .str "NaN")] = ([("a", .float .nan)], none) ∧
    processJSONL sprintFloat encodeFloat "\x7b\"a\":\"NaN\"\x7d" = .ok [""] ∧
    processJSONL sprintFloat encodeFloat "\x7b\"a\":\"5\",\"b\":\"\"\x7d" =
      .ok ["\x7b\"_error\":\x7b\"b\":\"Not inferable\"\x7d,\"a\":5,\"b\":\"\",\"has_error\":true\x7d"] := by
  refine ⟨by rfl, by rfl, by rfl, by rfl⟩

/-! ## The records `processJSONL` builds -/

lemma inferTypeAndSet_inferred (t key : String) (row : Row) :
    inferTypeAndSet t key row =
      match inferred t with
      | some w => (row.set key w, none)
      | none => (row, some "Not inferable") := by
  unfold inferred inferTypeAndSet
  cases Atoi t with
  | ok i => simp [GoMap.set, GoMap.get?]
  | error e =>
    cases ParseFloat t with
    | ok f => simp [GoMap.set, GoMap.get?]
    | error e2 =>
      by_cases h1 : t = "true" ∨ t = "false"
      · simp [h1, GoMap.set, GoMap.get?]
      · by_cases h2 : t = ""
        · simp [h1, h2, GoMap.get?]
        · simp [h1, h2, GoMap.set, GoMap.get?]

lemma annotateField_row (t key : String) (st : Annot) :
    (annotateField t key st).row =
      match inferred t with
      | some w => st.row.set key w
      | none => st.row := by
  unfold annotateField
  rw [inferTypeAndSet_inferred]
  cases inferred t <;> rfl

/-- On a map with distinct keys, an assignment to a key replaces its binding in
place. -/
lemma GoMap.set_mid {α : Type} (a : GoMap α) (k : String) (v w : α) (b : GoMap α)
    (hnd : ((a ++ (k, v) :: b).map Prod.fst).Nodup) :
    GoMap.set (a ++ (k, v) :: b) k w = a ++ (k, w) :: b := by
  induction a with
  | nil => simp [GoMap.set]
  | cons kv a ih =>
    obtain ⟨k1, v1⟩ := kv
    simp only [List.cons_append, List.map_cons, List.nodup_cons] at hnd
    have hne : k1 ≠ k := by
      rintro rfl
      exact hnd.1 (by simp)
    simp only [List.cons_append, GoMap.set, if_neg hne]
    exact congrArg ((k1, v1) :: ·) (ih hnd.2)

lemma foldl_annotateField_row (sprintFloat : Float64 → String) (ps : Row) :
    ∀ (done : Row) (st : Annot), st.row = done ++ ps →
      ((done ++ ps).map Prod.fst).Nodup →
      (ps.foldl (fun st kv => annotateField (strValue sprintFloat kv.2) kv.1 st) st).row =
        done ++ ps.map fun kv => (kv.1, (inferred (strValue sprintFloat kv.2)).getD kv.2) := by
  induction ps with
  | nil => intro done st h _; simpa using h
  | cons p ps ih =>
    intro done st h hnd
    obtain ⟨k, v⟩ := p
    simp only [List.foldl_cons, List.map_cons]
    have hrow : (annotateField (strValue sprintFloat v) k st).row =
        (done ++ [(k, (inferred (strValue sprintFloat v)).getD v)]) ++ ps := by
      rw [annotateField_row, h]
      cases inferred (strValue sprintFloat v) with
      | none => simp
      | some w => simp [GoMap.set_mid done k v w ps hnd]
    have hnd2 : (((done ++ [(k, (inferred (strValue sprintFloat v)).getD v)]) ++ ps).map
        Prod.fst).Nodup := by
      simpa using hnd
    have := ih _ _ hrow hnd2
    simpa using this

lemma foldl_describes (sprintFloat : Float64 → String) (row : Row) (st : Annot)
    (h : Describes [] st.errorMap st.hasError) :
    Describes (row.map fun kv => (kv.1, strValue sprintFloat kv.2))
      (row.foldl (fun st kv => annotateField (strValue sprintFloat kv.2) kv.1 st) st).errorMap
      (row.foldl (fun st kv => annotateField (strValue sprintFloat kv.2) kv.1 st) st).hasError := by
  have := describes_foldl (row.map fun kv => (kv.1, strValue sprintFloat kv.2)) [] st h
  simpa [List.foldl_map] using this

/-- The line `processJSONL` writes for a line that decodes as an object with
distinct keys: the encoding of the annotated record, or the empty string when
`json.Marshal` fails. -/
lemma processLine_record (sprintFloat encodeFloat : Float64 → String) (line : String)
    (row : Row) (h : Unmarshal line = some (some row)) (hnd : (row.map Prod.fst).Nodup) :
    ∃ errorMap hasError,
      Describes (row.map fun kv => (kv.1, strValue sprintFloat kv.2)) errorMap hasError ∧
      processLine sprintFloat encodeFloat line =
        .ok ((marshalValue encodeFloat
          (.obj (annotated sprintFloat row errorMap hasError))).getD "") := by
  have hd := foldl_describes sprintFloat row { row := row } describes_nil
  have hr := foldl_annotateField_row sprintFloat row [] { row := row } rfl (by simpa using hnd)
  refine ⟨_, _, hd, ?_⟩
  simp only [List.nil_append] at hr
  simp only [processLine, h, hr, annotated]
  cases marshalValue encodeFloat _ <;> rfl

lemma GoMap.keys_set {α : Type} (m : GoMap α) (k : String) (v : α) :
    (m.set k v).map Prod.fst =
      if k ∈ m.map Prod.fst then m.map Prod.fst else m.map Prod.fst ++ [k] := by
  induction m with
  | nil => simp [GoMap.set]
  | cons kv m ih =>
    obtain ⟨k1, v1⟩ := kv
    by_cases h : k1 = k
    · subst h
      simp [GoMap.set]
    · have h' : ¬ k = k1 := fun e => h e.symm
      simp only [GoMap.set, if_neg h, List.map_cons, ih, List.mem_cons, h', false_or]
      split <;> simp

lemma GoMap.nodup_set {α : Type} (m : GoMap α) (k : String) (v : α)
    (h : (m.map Prod.fst).Nodup) : ((m.set k v).map Prod.fst).Nodup := by
  rw [GoMap.keys_set]
  split
  · exact h
  · rename_i hk
    exact List.Nodup.append h (by simp) (by simpa using hk)

/-- The object decoder keeps the keys distinct. -/
lemma parseMembers_nodup :
    ∀ (fuel depth : Nat) (s : List Char) (acc m : GoMap Value) (rest : List Char),
      parseMembers fuel depth s acc = some (m, rest) → (acc.map Prod.fst).Nodup →
      (m.map Prod.fst).Nodup := by
  intro fuel
  induction fuel with
  | zero => intro depth s acc m rest h; simp [parseMembers] at h
  | succ fuel ih =>
    intro depth s acc m rest h hacc
    unfold parseMembers at h
    split at h
    · cases h
    · split at h
      · cases h
      · split at h
        · cases h
        · split at h
          · cases h
          · split at h
            · cases h
            · split at h
              · cases h
              · split at h
                · cases h
                · split at h
                  · exact ih _ _ _ _ _ h (GoMap.nodup_set _ _ _ hacc)
                  · split at h
                    · simp only [Option.some.injEq, Prod.mk.injEq] at h
                      rw [← h.1]
                      exact GoMap.nodup_set _ _ _ hacc
                    · cases h

lemma parseValue_obj_nodup (fuel depth : Nat) (s : List Char) (m : GoMap Value)
    (rest : List Char) (h : parseValue fuel depth s = some (.obj m, rest)) :
    (m.map Prod.fst).Nodup := by
  cases fuel with
  | zero => simp [parseValue] at h
  | succ fuel =>
    unfold parseValue at h
    split at h
    · cases h
    · split at h
      · split at h
        · cases h
        · split at h
          · cases h
          · split at h
            · simp only [Option.some.injEq, Prod.mk.injEq, Value.obj.injEq] at h
              rw [← h.1]
              simp
            · split at h
              · cases h
              · rename_i hm
                simp only [Option.some.injEq, Prod.mk.injEq, Value.obj.injEq] at h
                rw [← h.1]
                exact parseMembers_nodup _ _ _ _ _ _ hm (by simp)
      · exfalso
        repeat' split at h
        all_goals cases h

lemma Unmarshal_nodup {line : String} {row : Row} (h : Unmarshal line = some (some row)) :
    (row.map Prod.fst).Nodup := by
  unfold Unmarshal at h
  simp only [] at h
  split at h
  · cases h
  · rename_i v rest hv
    split at h
    · cases h
    · split at h
      · simp only [Option.some.injEq] at h
        subst h
        exact parseValue_obj_nodup _ _ _ _ _ hv
      · cases h
      · cases h

/-- When every line decodes as an object, `processJSONL` writes one line per
input line, in order: the encoding of the annotated record, or the empty string
when `json.Marshal` fails. -/
lemma processLines_records (sprintFloat encodeFloat : Float64 → String) (lines : List String)
    (h : ∀ line ∈ lines, ∃ row, Unmarshal line = some (some row)) :
    ∃ outs, processLines sprintFloat encodeFloat lines = .ok outs ∧
      List.Forall₂ (fun line out => ∃ row errorMap hasError,
        Unmarshal line = some (some row) ∧
        Describes (row.map fun kv => (kv.1, strValue sprintFloat kv.2)) errorMap hasError ∧
        out = (marshalValue encodeFloat
          (.obj (annotated sprintFloat row errorMap hasError))).getD "") lines outs := by
  induction lines with
  | nil => exact ⟨[], rfl, List.Forall₂.nil⟩
  | cons line lines ih =>
    obtain ⟨outs, h1, h2⟩ := ih (fun l hl => h l (List.mem_cons_of_mem _ hl))
    obtain ⟨row, hrow⟩ := h line (List.mem_cons_self _ _)
    obtain ⟨em, he, hd, hp⟩ :=
      processLine_record sprintFloat encodeFloat line row hrow (Unmarshal_nodup hrow)
    exact ⟨_ :: outs, by simp [processLines, hp, h1],
      List.Forall₂.cons ⟨row, em, he, hrow, hd, rfl⟩ h2⟩

end S3DataCleaner
